import Mathlib

/-!
Verification of the messaging_system Python repository: container text
format (serialize/parse round trip), value tree operations, escape
coding, frame codec, and client/server send/receive logic.

Strings are modelled as `List Char`; Python byte streams as `List Nat`.
Python regular-expression calls are embedded as deterministic scanners
implementing the documented leftmost / lazy semantics of the concrete
patterns used by the source (`container.py`), with `\w` and `\s`
restricted to their ASCII meaning.  Functions whose Python counterpart
recurses on a non-structural argument are written with an explicit fuel
parameter; the wrappers supply fuel that provably suffices.
-/

/-! ## Character classes (ASCII reading of the regex classes) -/

/-- ASCII model of the regex class `\w`: alphanumeric or underscore. -/
def isWordChar (c : Char) : Bool := c.isAlphanum || c = '_'

/-- ASCII model of the regex class `\s` (Python whitespace). -/
def isSpaceChar (c : Char) : Bool :=
  c = ' ' || c = '\t' || c = '\n' || c = '\r' || c = '\x0b' || c = '\x0c'

/-- The regex character class `[\s?]` used in the container patterns. -/
def isClassChar (c : Char) : Bool := isSpaceChar c || c = '?'

/-! ## Basic list-of-char utilities -/

/-- Boolean prefix test on character lists. -/
def isPre : List Char → List Char → Bool
  | [], _ => true
  | _ :: _, [] => false
  | a :: as, b :: bs => a = b && isPre as bs

/-- Boolean substring (contiguous) test on character lists. -/
def hasSub (pat : List Char) : List Char → Bool
  | [] => isPre pat []
  | c :: s => isPre pat (c :: s) || hasSub pat s

/-- Last element of a character list, if any. -/
def lastChar : List Char → Option Char
  | [] => Option.none
  | [c] => some c
  | _ :: c :: r => lastChar (c :: r)

/-- Decimal digit character for `d < 10`. -/
def digitChar (d : Nat) : Char := Char.ofNat (48 + d)

/-- Fuel-driven decimal rendering of a natural number (no sign, no
leading zeros), the value of Python `str` on a non-negative int. -/
def natToCharsGo : Nat → Nat → List Char
  | 0, _ => []
  | fuel + 1, n => if n < 10 then [digitChar n] else natToCharsGo fuel (n / 10) ++ [digitChar (n % 10)]

/-- Decimal rendering of a natural number, as Python `str(n)`. -/
def natToChars (n : Nat) : List Char := natToCharsGo (n + 1) n

/-- One step list of Python `str.replace`: fuel-driven leftmost
non-overlapping replacement of `pat` by `rep`. -/
def replaceGo : Nat → List Char → List Char → List Char → List Char
  | 0, _, _, s => s
  | _ + 1, _, _, [] => []
  | fuel + 1, pat, rep, c :: s =>
    if isPre pat (c :: s) then rep ++ replaceGo fuel pat rep (s.drop (pat.length - 1))
    else c :: replaceGo fuel pat rep s

/-- Python `s.replace(pat, rep)` for a non-empty pattern. -/
def pyReplace (pat rep s : List Char) : List Char := replaceGo s.length pat rep s

/-- Concatenation of the images of a character-expanding function. -/
def cmap (f : Char → List Char) : List Char → List Char
  | [] => []
  | c :: s => f c ++ cmap f s

/-! ## The escape scheme of `Value._encode_value` / `Value._decode_value` -/

/-- Sentinel written for a carriage return. -/
def sentA : List Char := "</0x0A;>".toList

/-- Sentinel written for a line feed. -/
def sentB : List Char := "</0x0B;>".toList

/-- Sentinel written for a space. -/
def sentC : List Char := "</0x0C;>".toList

/-- Sentinel written for a tab. -/
def sentD : List Char := "</0x0D;>".toList

/-- `Value._encode_value`: the four sequential `str.replace` calls, in
source order (CR, LF, space, tab). -/
def encodeValue (s : List Char) : List Char :=
  pyReplace ['\t'] sentD (pyReplace [' '] sentC (pyReplace ['\n'] sentB (pyReplace ['\r'] sentA s)))

/-- `Value._decode_value`: the four sequential reverse replacements. -/
def decodeValue (s : List Char) : List Char :=
  pyReplace sentD ['\t'] (pyReplace sentC [' '] (pyReplace sentB ['\n'] (pyReplace sentA ['\r'] s)))

/-- The escape map as a partial character-to-block function. -/
def escMap (c : Char) : Option (List Char) :=
  if c = '\r' then some sentA
  else if c = '\n' then some sentB
  else if c = ' ' then some sentC
  else if c = '\t' then some sentD
  else Option.none

/-- `escMap` after the CR pass of decoding has been undone. -/
def escMap1 (c : Char) : Option (List Char) := if c = '\r' then Option.none else escMap c

/-- `escMap1` after the LF pass of decoding has been undone. -/
def escMap2 (c : Char) : Option (List Char) := if c = '\n' then Option.none else escMap1 c

/-- `escMap2` after the space pass of decoding has been undone. -/
def escMap3 (c : Char) : Option (List Char) := if c = ' ' then Option.none else escMap2 c

/-- `escMap3` after the tab pass of decoding has been undone. -/
def escMap4 (c : Char) : Option (List Char) := if c = '\t' then Option.none else escMap3 c

/-- Expand every character through a partial escape map. -/
def expandM (m : Char → Option (List Char)) (s : List Char) : List Char :=
  cmap (fun c => (m c).getD [c]) s

/-- A payload is sentinel-free when it contains none of the four escape
sentinels as a substring. -/
def sentinelFreeB (s : List Char) : Bool :=
  !(hasSub sentA s) && !(hasSub sentB s) && !(hasSub sentC s) && !(hasSub sentD s)

/-! ## Value kinds (`value_types.py`) -/

/-- The sixteen value kinds of `ValueType`. -/
inductive VKind where
  | nullK | boolK | charK | i8K | u8K | i16K | u16K | i32K | u32K
  | i64K | u64K | floatK | doubleK | bytesK | containerK | stringK
deriving DecidableEq, Repr

/-- `ValueType.from_string`: unknown tags map to `NULL_VALUE`. -/
def typeOf (t : List Char) : VKind :=
  if t = ['0'] then .nullK
  else if t = ['1'] then .boolK
  else if t = ['2'] then .charK
  else if t = ['3'] then .i8K
  else if t = ['4'] then .u8K
  else if t = ['5'] then .i16K
  else if t = ['6'] then .u16K
  else if t = ['7'] then .i32K
  else if t = ['8'] then .u32K
  else if t = ['9'] then .i64K
  else if t = ['a'] then .u64K
  else if t = ['b'] then .floatK
  else if t = ['c'] then .doubleK
  else if t = ['d'] then .bytesK
  else if t = ['e'] then .containerK
  else if t = ['f'] then .stringK
  else .nullK

/-- `ValueType.is_numeric`. -/
def VKind.isNumericK : VKind → Bool
  | .charK | .i8K | .u8K | .i16K | .u16K | .i32K | .u32K
  | .i64K | .u64K | .floatK | .doubleK => true
  | _ => false

/-- The numeric kinds converted through Python `float`. -/
def VKind.isFloatK : VKind → Bool
  | .floatK | .doubleK => true
  | _ => false

/-! ## Value trees (`value.py`)

A `VTree` is a `Value` with its decoded payload (`value_string`), its
type tag string (`type_string`) and its ordered children; the mutable
`parent` back-pointer is modelled separately (heap model below) where a
claim needs it. -/

/-- A value node: name, type tag string, decoded payload, children. -/
inductive VTree where
  | node (name ts vs : List Char) (children : List VTree)

/-- Name of a value node. -/
def vname : VTree → List Char
  | .node n _ _ _ => n

/-- Type tag string of a value node. -/
def vts : VTree → List Char
  | .node _ t _ _ => t

/-- Decoded payload of a value node. -/
def vvs : VTree → List Char
  | .node _ _ v _ => v

/-- Children of a value node. -/
def vchildren : VTree → List VTree
  | .node _ _ _ ch => ch

/-- `Value.append` restricted to the tree shape (parent pointer aside):
push the child at the end. -/
def vappend (v c : VTree) : VTree :=
  match v with
  | .node n t s ch => .node n t s (ch ++ [c])

mutual
/-- Structural boolean equality of value trees. -/
def beqV : VTree → VTree → Bool
  | .node n1 t1 v1 c1, .node n2 t2 v2 c2 =>
    n1 = n2 && t1 = t2 && v1 = v2 && beqF c1 c2
/-- Structural boolean equality of value forests. -/
def beqF : List VTree → List VTree → Bool
  | [], [] => true
  | x :: xs, y :: ys => beqV x y && beqF xs ys
  | _, _ => false
end

/-! ## Serialization (`Value.serialize`, `Container.serialize`) -/

/-- The text of one `[name,type,payload];` entry as emitted by
`Value.serialize` (payload already escape-encoded). -/
def entryText (n t e : List Char) : List Char :=
  '[' :: (n ++ ',' :: (t ++ ',' :: (e ++ [']', ';'])))

mutual
/-- `Value.serialize`: own entry followed by the serialized children. -/
def valueSerialize : VTree → List Char
  | .node n t v ch => entryText n t (encodeValue v) ++ serializeF ch
/-- Concatenated serialization of a forest, in order. -/
def serializeF : List VTree → List Char
  | [] => []
  | v :: vs => valueSerialize v ++ serializeF vs
end

mutual
/-- The flat entry stream (name, type tag, decoded payload) described
by a value tree, in serialization order. -/
def flattenV : VTree → List (List Char × List Char × List Char)
  | .node n t v ch => (n, t, v) :: flattenF ch
/-- The flat entry stream of a forest. -/
def flattenF : List VTree → List (List Char × List Char × List Char)
  | [] => []
  | v :: vs => flattenV v ++ flattenF vs
end

/-- The container object: the six headers `'1'..'6'`, the value forest,
the cached data string and the `_deserialized` flag. -/
structure ContainerM where
  h1 : List Char
  h2 : List Char
  h3 : List Char
  h4 : List Char
  h5 : List Char
  h6 : List Char
  values : List VTree
  dataString : List Char
  deserialized : Bool

/-- A fresh container (`Container.__init__` without a message). -/
def containerInit : ContainerM :=
  ⟨[], [], [], [], [], "1.0.0.0".toList, [], [], false⟩

/-- `Container.create`. -/
def containerCreate (t ts s ss mt : List Char) (vs : List VTree) : ContainerM :=
  { containerInit with
    h1 := t
    h2 := ts
    h3 := s
    h4 := ss
    h5 := mt
    values := vs
    deserialized := true }

/-- The header entries in numeric key order (`sorted(self.headers)`). -/
def headerKVs (c : ContainerM) : List (List Char × List Char) :=
  [(['1'], c.h1), (['2'], c.h2), (['3'], c.h3), (['4'], c.h4), (['5'], c.h5), (['6'], c.h6)]

/-- One `[key,value];` header entry. -/
def hentryText (kv : List Char × List Char) : List Char :=
  '[' :: (kv.1 ++ ',' :: (kv.2 ++ [']', ';']))

/-- Concatenated header entries. -/
def hentsText : List (List Char × List Char) → List Char
  | [] => []
  | kv :: r => hentryText kv ++ hentsText r

/-- `Container._serialize_headers`, wrapped in the header block. -/
def headerText (c : ContainerM) : List Char :=
  "@header=".toList ++ '\x7b' :: (hentsText (headerKVs c) ++ '\x7d' :: ';' :: [])

/-- `Container._make_data_string`. -/
def makeDataString (vs : List VTree) : List Char :=
  "@data=".toList ++ '\x7b' :: (serializeF vs ++ '\x7d' :: ';' :: [])

/-- `Container.serialize`: regenerate the data block when the forest is
authoritative, otherwise reuse the cached data string.  (The source
also writes the cache back and clears `_deserialized`; the returned
text depends only on the state passed in.) -/
def containerSerialize (c : ContainerM) : List Char :=
  headerText c ++ (if c.deserialized then makeDataString c.values else c.dataString)

/-! ## Parsing (`Container.parse`, `_parse_header`, `_parse_data`)

The source locates blocks with `re.search` and splits entries with
`re.findall`.  For the concrete patterns involved the regex semantics
is deterministic and is embedded by the scanners below. -/

/-- `re.sub(r'\r\n?|\n', '', message)`: every CR and LF character is
removed. -/
def stripCRLF (s : List Char) : List Char :=
  s.filter (fun c => !(c = '\r' || c = '\n'))

/-- Scan for the first occurrence of the two characters `};`, returning
the text up to and including it (the lazy tail
`(.*?)[\s?]*\};` of the block patterns). -/
def upToClose : List Char → Option (List Char)
  | [] => Option.none
  | c :: r =>
    if c = '\x7d' then
      match r with
      | [] => Option.none
      | d :: r2 =>
        if d = ';' then some [c, d]
        else (upToClose (d :: r2)).map (fun t => c :: t)
    else (upToClose r).map (fun t => c :: t)

/-- Try to match `tag[\s?]*\{[\s?]*(.*?)[\s?]*\};` at the head of `s`,
returning the full matched text. -/
def blockAttempt (tag s : List Char) : Option (List Char) :=
  let r0 := s.drop tag.length
  let ws := r0.takeWhile isClassChar
  match r0.drop ws.length with
  | [] => Option.none
  | c :: r2 =>
    if c = '\x7b' then (upToClose r2).map (fun t => tag ++ ws ++ c :: t)
    else Option.none

/-- Leftmost-match scan of `re.search` for a block pattern beginning
with the literal `tag`; fuel bounds the scan. -/
def searchBlockGo : Nat → List Char → List Char → Option (List Char)
  | 0, _, _ => Option.none
  | _ + 1, _, [] => Option.none
  | fuel + 1, tag, c :: r =>
    if isPre tag (c :: r) then
      match blockAttempt tag (c :: r) with
      | some t => some t
      | Option.none => searchBlockGo fuel tag r
    else searchBlockGo fuel tag r

/-- `re.search` for the header/data block pattern. -/
def searchBlock (tag s : List Char) : Option (List Char) :=
  searchBlockGo (s.length + 1) tag s

/-- Scan for the first occurrence of `];`, returning the text before it
and the text after it (the lazy group `(.*?)\];`). -/
def splitAtEnd : List Char → Option (List Char × List Char)
  | [] => Option.none
  | c :: r =>
    if c = ']' then
      match r with
      | [] => Option.none
      | d :: r2 =>
        if d = ';' then some ([], r2)
        else (splitAtEnd (d :: r2)).map (fun p => (c :: p.1, p.2))
    else (splitAtEnd r).map (fun p => (c :: p.1, p.2))

/-- Attempt the header entry pattern `\[(\w+),(.*?)\];` just after an
opening bracket: key, then the lazy value up to the first `];`. -/
def entryAttemptH (s : List Char) : Option ((List Char × List Char) × List Char) :=
  let n := s.takeWhile isWordChar
  if n = [] then Option.none
  else
    match s.drop n.length with
    | [] => Option.none
    | c :: r =>
      if c = ',' then (splitAtEnd r).map (fun p => ((n, p.1), p.2))
      else Option.none

/-- `re.findall` of the header entry pattern: left-to-right scan for
`[`, non-overlapping matches. -/
def findEntriesHGo : Nat → List Char → List (List Char × List Char)
  | 0, _ => []
  | _ + 1, [] => []
  | fuel + 1, c :: r =>
    if c = '[' then
      match entryAttemptH r with
      | some (e, rest) => e :: findEntriesHGo fuel rest
      | Option.none => findEntriesHGo fuel r
    else findEntriesHGo fuel r

/-- `re.findall(r'\[(\w+),(.*?)\];', s)`. -/
def findEntriesH (s : List Char) : List (List Char × List Char) :=
  findEntriesHGo s.length s

/-- Attempt the data entry pattern `\[(\w+),[\s?]*(\w+),[\s?]*(.*?)\];`
just after an opening bracket. -/
def entryAttemptD (s : List Char) : Option ((List Char × List Char × List Char) × List Char) :=
  let n := s.takeWhile isWordChar
  if n = [] then Option.none
  else
    match s.drop n.length with
    | [] => Option.none
    | c1 :: r1 =>
      if c1 = ',' then
        let r2 := r1.drop (r1.takeWhile isClassChar).length
        let t := r2.takeWhile isWordChar
        if t = [] then Option.none
        else
          match r2.drop t.length with
          | [] => Option.none
          | c2 :: r3 =>
            if c2 = ',' then
              let r4 := r3.drop (r3.takeWhile isClassChar).length
              (splitAtEnd r4).map (fun p => ((n, t, p.1), p.2))
            else Option.none
      else Option.none

/-- `re.findall` of the data entry pattern. -/
def findEntriesDGo : Nat → List Char → List (List Char × List Char × List Char)
  | 0, _ => []
  | _ + 1, [] => []
  | fuel + 1, c :: r =>
    if c = '[' then
      match entryAttemptD r with
      | some (e, rest) => e :: findEntriesDGo fuel rest
      | Option.none => findEntriesDGo fuel r
    else findEntriesDGo fuel r

/-- `re.findall(r'\[(\w+),[\s?]*(\w+),[\s?]*(.*?)\];', s)`. -/
def findEntriesD (s : List Char) : List (List Char × List Char × List Char) :=
  findEntriesDGo s.length s

/-! ### Tree reconstruction (`Container._parse_data`)

The Python loop mutates a tree through parent pointers and a cursor
`previous_value`.  It is embedded as a zipper: `done` holds the
finished top-level values and the stack holds the chain of open
CONTAINER nodes, innermost first.  A child is attached to its parent
frame when the cursor leaves it (pop or final flush), which yields the
same trees in the same order as the in-place mutation. -/

/-- An open CONTAINER node under construction. -/
structure BFrame where
  name : List Char
  ts : List Char
  vs : List Char
  children : List VTree

/-- Parser state: finished top-level values and open-container stack
(innermost first). -/
abbrev BState := List VTree × List BFrame

/-- Close an open frame into a value node. -/
def closeFrame (f : BFrame) : VTree := .node f.name f.ts f.vs f.children

/-- Attach a child at the end of an open frame. -/
def addChild (f : BFrame) (v : VTree) : BFrame :=
  { f with children := f.children ++ [v] }

/-- One ascent of the cursor: the closed frame is attached to its
parent frame, or becomes a finished top-level value when it has no
parent (`previous_value = previous_value.parent` with parent `None`). -/
def ascend1 (done : List VTree) (f : BFrame) (st : List BFrame) : BState :=
  match st with
  | [] => (done ++ [closeFrame f], [])
  | g :: r => (done, addChild g (closeFrame f) :: r)

/-- The completeness check of the source: the stored child count (the
decoded `raw`, compared as a string with `str(len(children))`) against
the actual number of children; on equality the cursor ascends once. -/
def closeCheck (done : List VTree) (f : BFrame) (st : List BFrame) : BState :=
  if natToChars f.children.length = f.vs then ascend1 done f st else (done, f :: st)

/-- One iteration of the `_parse_data` hierarchy loop on a decoded
entry (name, type string, decoded payload). -/
def buildStep (st : BState) (e : List Char × List Char × List Char) : BState :=
  if typeOf e.2.1 = .nullK then st
  else
    match st.2 with
    | [] =>
      if typeOf e.2.1 = .containerK then (st.1, [⟨e.1, e.2.1, e.2.2, []⟩])
      else (st.1 ++ [.node e.1 e.2.1 e.2.2 []], [])
    | f :: rest =>
      if typeOf e.2.1 = .containerK then (st.1, ⟨e.1, e.2.1, e.2.2, []⟩ :: f :: rest)
      else closeCheck st.1 (addChild f (.node e.1 e.2.1 e.2.2 [])) rest

/-- Fold an open frame into the rest of the stack, innermost first. -/
def flushGo (done : List VTree) (f : BFrame) : List BFrame → List VTree
  | [] => done ++ [closeFrame f]
  | g :: r => flushGo done (addChild g (closeFrame f)) r

/-- Attach every still-open frame to its parent (the trees were already
attached in the Python original; the zipper does it on exit). -/
def flushStack : BState → List VTree
  | (done, []) => done
  | (done, f :: r) => flushGo done f r

/-- The value forest produced by the `_parse_data` loop from a decoded
entry stream, starting from already-present top-level values. -/
def buildValues (done0 : List VTree) (es : List (List Char × List Char × List Char)) : List VTree :=
  flushStack (es.foldl buildStep (done0, []))

/-- Decode the wire payload of one scanned entry
(`Value.__init__` applies `_decode_value`). -/
def decodeEntry (e : List Char × List Char × List Char) : List Char × List Char × List Char :=
  (e.1, e.2.1, decodeValue e.2.2)

/-- `Container._parse_data`: cache the data string, set the flag, and
when parsing, scan the entries and rebuild the hierarchy. -/
def parseDataInto (c : ContainerM) (dtext : List Char) (parsing : Bool) : ContainerM :=
  let c1 := { c with dataString := dtext, deserialized := parsing }
  if parsing then
    { c1 with values := buildValues c.values ((findEntriesD dtext).map decodeEntry) }
  else c1

/-- Assign one scanned header entry (`_parse_header`: unknown keys are
ignored). -/
def setHeader (c : ContainerM) (kv : List Char × List Char) : ContainerM :=
  if kv.1 = ['1'] then { c with h1 := kv.2 }
  else if kv.1 = ['2'] then { c with h2 := kv.2 }
  else if kv.1 = ['3'] then { c with h3 := kv.2 }
  else if kv.1 = ['4'] then { c with h4 := kv.2 }
  else if kv.1 = ['5'] then { c with h5 := kv.2 }
  else if kv.1 = ['6'] then { c with h6 := kv.2 }
  else c

/-- `Container._parse_header` applied to the matched header block. -/
def parseHeaderInto (c : ContainerM) (htext : List Char) : ContainerM :=
  (findEntriesH htext).foldl setHeader c

/-- `Container.parse` (and the `Container(message)` constructor):
strip CR/LF, locate the blocks, parse them. -/
def containerParse (msg : List Char) : ContainerM :=
  let m := stripCRLF msg
  let c1 :=
    match searchBlock "@header=".toList m with
    | some h => parseHeaderInto containerInit h
    | Option.none => containerInit
  match searchBlock "@data=".toList m with
  | some d => parseDataInto c1 d true
  | Option.none => c1

/-- The top-level values `Container.get` walks: the lazy re-parse of
the cached data string happens first when the forest is not
authoritative. -/
def effValues (c : ContainerM) : List VTree :=
  if c.deserialized = false ∧ c.dataString ≠ [] then
    (parseDataInto c c.dataString true).values
  else c.values

/-- The NULL placeholder `Container.get` returns for an absent name. -/
def nullPlaceholder (n : List Char) : VTree := .node n ['0'] [] []

/-- `Container.get`. -/
def containerGet (c : ContainerM) (n : List Char) : List VTree :=
  if n = [] then effValues c
  else
    match (effValues c).filter (fun v => vname v = n) with
    | [] => [nullPlaceholder n]
    | r => r

/-! ## The cursor semantics claimed by the specification (§4.2 step 3)

For claim C2 the spec describes a check after *every* append with a
*cascading* ascent.  It is embedded on the same zipper state so the two
semantics can be compared. -/

/-- Cascading close: while the current cursor's stored count equals its
child count, ascend (`cascading`); a cursor without a parent becomes
none. -/
def cascadeGo (done : List VTree) (f : BFrame) : List BFrame → BState
  | [] =>
    if natToChars f.children.length = f.vs then (done ++ [closeFrame f], [])
    else (done, [f])
  | g :: r =>
    if natToChars f.children.length = f.vs then cascadeGo done (addChild g (closeFrame f)) r
    else (done, f :: g :: r)

/-- Run the cascading check on the current cursor, if any. -/
def cascade (st : BState) : BState :=
  match st.2 with
  | [] => st
  | f :: r => cascadeGo st.1 f r

/-- One entry under the spec-claimed semantics: append (descending into
an appended CONTAINER), then compare the cursor's stored child count
with its actual children length after every append, cascading upward on
equality. -/
def specStep (st : BState) (e : List Char × List Char × List Char) : BState :=
  if typeOf e.2.1 = .nullK then st
  else
    match st.2 with
    | [] =>
      if typeOf e.2.1 = .containerK then cascade (st.1, [⟨e.1, e.2.1, e.2.2, []⟩])
      else (st.1 ++ [.node e.1 e.2.1 e.2.2 []], [])
    | f :: rest =>
      if typeOf e.2.1 = .containerK then cascade (st.1, ⟨e.1, e.2.1, e.2.2, []⟩ :: f :: rest)
      else cascade (st.1, addChild f (.node e.1 e.2.1 e.2.2 []) :: rest)

/-- The claimed parse result: fold the spec-claimed step over the
entries and flush. -/
def specBuildValues (done0 : List VTree) (es : List (List Char × List Char × List Char)) : List VTree :=
  flushStack (es.foldl specStep (done0, []))

/-- The amended cursor semantics (what the code does): an appended
CONTAINER becomes the cursor with no completeness check; only after
appending a non-CONTAINER entry is the cursor's stored count compared,
and on equality the cursor ascends exactly one level, never cascading. -/
def amendedStep (st : BState) (e : List Char × List Char × List Char) : BState :=
  if typeOf e.2.1 = .nullK then st
  else
    match st.2 with
    | [] =>
      if typeOf e.2.1 = .containerK then (st.1, [⟨e.1, e.2.1, e.2.2, []⟩])
      else (st.1 ++ [.node e.1 e.2.1 e.2.2 []], [])
    | f :: rest =>
      if typeOf e.2.1 = .containerK then (st.1, ⟨e.1, e.2.1, e.2.2, []⟩ :: f :: rest)
      else
        let f2 := addChild f (.node e.1 e.2.1 e.2.2 [])
        if natToChars f2.children.length = f2.vs then ascend1 st.1 f2 rest
        else (st.1, f2 :: rest)

/-! ## Typed reads (`Value.get_value`, `Container.get_value`) -/

/-- A Python value as returned by `get_value`: `None`, bool, int,
float, or string.  Floats are represented by their accepted literal
(sign, integer digits, fraction digits, exponent); the IEEE value the
literal denotes is not needed by any claim. -/
inductive PyFloatLit where
  | finite (neg : Bool) (ip fp : List Char) (ex : Int)
  | infty (neg : Bool)
  | nanL (neg : Bool)
deriving DecidableEq, Repr

/-- The dynamic result type of `get_value`. -/
inductive PyVal where
  | pnone
  | pbool (b : Bool)
  | pint (n : Int)
  | pfloat (f : PyFloatLit)
  | pstr (s : List Char)
deriving DecidableEq, Repr

/-- Strip Python whitespace from both ends (ASCII model). -/
def pyStrip (s : List Char) : List Char :=
  List.reverse (List.dropWhile isSpaceChar (List.reverse (List.dropWhile isSpaceChar s)))

/-- Accumulate decimal digits with single underscores allowed between
digits (Python numeric literal grouping); fails on a misplaced
underscore. -/
def digitsValGo : List Char → Nat → Option Nat
  | [], acc => some acc
  | c :: r, acc =>
    if c.isDigit then digitsValGo r (acc * 10 + (c.toNat - 48))
    else if c = '_' then
      match r with
      | [] => Option.none
      | d :: r2 => if d.isDigit then digitsValGo r2 (acc * 10 + (d.toNat - 48)) else Option.none
    else Option.none

/-- The digit part of Python `int(str)`: at least one digit, optional
grouping underscores. -/
def pyIntDigits : List Char → Option Nat
  | [] => Option.none
  | c :: r => if c.isDigit then digitsValGo r (c.toNat - 48) else Option.none

/-- Python `int(str)` (base 10, ASCII digits): strip, optional sign,
digits. -/
def pyIntParse (s : List Char) : Option Int :=
  match pyStrip s with
  | [] => Option.none
  | c :: r =>
    if c = '+' then (pyIntDigits r).map (fun n => (n : Int))
    else if c = '-' then (pyIntDigits r).map (fun n => -(n : Int))
    else (pyIntDigits (c :: r)).map (fun n => (n : Int))

/-- Collect a possibly-empty run of digits with grouping underscores,
returning the digits (underscores removed) and the rest; fails on a
misplaced underscore. -/
def digitRunGo : List Char → List Char → Option (List Char × List Char)
  | [], acc => some (acc.reverse, [])
  | c :: r, acc =>
    if c.isDigit then digitRunGo r (c :: acc)
    else if c = '_' then
      if acc = [] then Option.none
      else
        match r with
        | [] => Option.none
        | d :: r2 => if d.isDigit then digitRunGo r2 (d :: acc) else Option.none
    else some (acc.reverse, c :: r)

/-- Exponent part of a Python float literal: optional sign, digits. -/
def expParse : List Char → Option Int
  | [] => Option.none
  | c :: r =>
    let en := c = '-'
    let body := if c = '-' ∨ c = '+' then r else c :: r
    match body with
    | [] => Option.none
    | d :: r2 =>
      if d.isDigit then
        match digitsValGo r2 (d.toNat - 48) with
        | some n => some (if en then -(n : Int) else (n : Int))
        | Option.none => Option.none
      else Option.none

/-- Python `float(str)` as an accepted-literal parser: strip, optional
sign, then `inf`/`infinity`/`nan` (case-insensitive) or a decimal with
optional fraction and exponent; at least one mantissa digit. -/
def pyFloatParse (s : List Char) : Option PyFloatLit :=
  match pyStrip s with
  | [] => Option.none
  | c :: r =>
    let neg := c = '-'
    let body := if c = '-' ∨ c = '+' then r else c :: r
    let low := body.map Char.toLower
    if low = "inf".toList ∨ low = "infinity".toList then some (.infty neg)
    else if low = "nan".toList then some (.nanL neg)
    else
      match digitRunGo body [] with
      | Option.none => Option.none
      | some (ip, r1) =>
        match r1 with
        | [] => if ip = [] then Option.none else some (.finite neg ip [] 0)
        | d :: r2 =>
          if d = '.' then
            match digitRunGo r2 [] with
            | Option.none => Option.none
            | some (fp, r3) =>
              if ip = [] ∧ fp = [] then Option.none
              else
                match r3 with
                | [] => some (.finite neg ip fp 0)
                | e :: r4 =>
                  if e = 'e' ∨ e = 'E' then (expParse r4).map (fun ex => .finite neg ip fp ex)
                  else Option.none
          else if d = 'e' ∨ d = 'E' then
            if ip = [] then Option.none
            else (expParse r2).map (fun ex => .finite neg ip [] ex)
          else Option.none

/-- `Value.get_value`: kind-directed conversion of the decoded payload;
a failed numeric parse returns the default. -/
def valueGetValue (v : VTree) (dflt : PyVal) : PyVal :=
  let k := typeOf (vts v)
  if k = .nullK then PyVal.pnone
  else if k = .boolK then PyVal.pbool ((vvs v).map Char.toLower = "true".toList)
  else if k.isNumericK then
    if k.isFloatK then
      match pyFloatParse (vvs v) with
      | some f => PyVal.pfloat f
      | Option.none => dflt
    else
      match pyIntParse (vvs v) with
      | some n => PyVal.pint n
      | Option.none => dflt
  else PyVal.pstr (vvs v)

/-- `Container.get_value`: first match through `get`; a NULL-kind first
match yields the default. -/
def containerGetValue (c : ContainerM) (n : List Char) (dflt : PyVal) : PyVal :=
  match containerGet c n with
  | [] => dflt
  | v :: _ => if typeOf (vts v) ≠ .nullK then valueGetValue v dflt else dflt

/-- The typed read described by the (amended) claim, over the top-level
values: first value named `n`; NULL kind and absence both give the
default; BOOL compares the lower-cased raw with true; integer kinds
parse via `int`, float kinds via `float`, failure giving the default;
all other kinds give the raw string. -/
def specGetValue (c : ContainerM) (n : List Char) (dflt : PyVal) : PyVal :=
  match c.values.filter (fun v => vname v = n) with
  | [] => dflt
  | v :: _ =>
    let k := typeOf (vts v)
    if k = .nullK then dflt
    else if k = .boolK then PyVal.pbool ((vvs v).map Char.toLower = "true".toList)
    else if k.isFloatK then
      match pyFloatParse (vvs v) with
      | some f => PyVal.pfloat f
      | Option.none => dflt
    else if k.isNumericK then
      match pyIntParse (vvs v) with
      | some nv => PyVal.pint nv
      | Option.none => dflt
    else PyVal.pstr (vvs v)

/-! ## Parent pointers under mutation (`Value.append` / `Value.remove`)

The Python objects alias each other through `parent`; claim C6 is about
that graph, so nodes are modelled in a heap indexed by `Nat`. -/

/-- A heap node: name, ordered children (by id), parent id. -/
structure PNode where
  pname : List Char
  pchildren : List Nat
  pparent : Option Nat

/-- The object heap. -/
abbrev Heap := Nat → PNode

/-- Update one heap cell. -/
def setNode (h : Heap) (i : Nat) (nd : PNode) : Heap :=
  fun j => if j = i then nd else h j

/-- `Value.append`: set `child.parent = self`, then push the child. -/
def heapAppend (h : Heap) (p c : Nat) : Heap :=
  let h1 := setNode h c { h c with pparent := some p }
  setNode h1 p { h1 p with pchildren := (h1 p).pchildren ++ [c] }

/-- `Value.remove`: filter the children by name; parent links of the
removed children are not touched. -/
def heapRemove (h : Heap) (p : Nat) (n : List Char) : Heap :=
  setNode h p { h p with pchildren := (h p).pchildren.filter (fun cid => !((h cid).pname = n)) }

/-- The claimed parent-link invariant: whenever a parent link is set,
the parent's children contain the node. -/
def ParentInv (h : Heap) : Prop :=
  ∀ v q, (h v).pparent = some q → v ∈ (h q).pchildren

/-! ## Frame codec (`_receive_packet` / `send_packet` framing) -/

/-- Default frame start byte run (four times 231). -/
def startRun : List Nat := [231, 231, 231, 231]

/-- Default frame end byte run (four times 67). -/
def endRun : List Nat := [67, 67, 67, 67]

/-- Little-endian decode of four bytes (`int.from_bytes(_, 'little')`). -/
def leDec4 : List Nat → Nat
  | [a, b, c, d] => a + 256 * b + 65536 * c + 16777216 * d
  | _ => 0

/-- Little-endian encode into four bytes (`to_bytes(4, 'little')`,
defined for values below 2^32). -/
def le4 (n : Nat) : List Nat :=
  [n % 256, n / 256 % 256, n / 65536 % 256, n / 16777216 % 256]

/-- Read `k` bytes one at a time, each required to equal `b`; a
mismatched byte is consumed, end of stream consumes nothing further. -/
def readRunB : Nat → Nat → List Nat → Bool × List Nat
  | 0, _, s => (true, s)
  | k + 1, b, s =>
    match s with
    | [] => (false, [])
    | x :: r => if x = b then readRunB k b r else (false, r)

/-- One call of `_receive_packet` on a byte stream: start run, type
byte 2, little-endian length, payload, end run; any failure returns
none with the bytes consumed so far gone. -/
def recvPacket (s : List Nat) : Option (List Nat) × List Nat :=
  let r1 := readRunB 4 231 s
  if r1.1 = false then (Option.none, r1.2)
  else
    match r1.2 with
    | [] => (Option.none, [])
    | t :: s2 =>
      if t ≠ 2 then (Option.none, s2)
      else
        let lenB := s2.take 4
        let s3 := s2.drop 4
        if lenB.length ≠ 4 then (Option.none, s3)
        else
          let L := leDec4 lenB
          if s3.length < L then (Option.none, [])
          else
            let payload := s3.take L
            let r2 := readRunB 4 67 (s3.drop L)
            if r2.1 = false then (Option.none, r2.2)
            else (some payload, r2.2)

/-- The client receive loop (`_receive_loop`): keep calling
`_receive_packet`; a `None` result does not abandon the stream.  An
empty stream yields nothing (the Python loop spins on EOF). -/
def recvLoopGo : Nat → List Nat → Option (List Nat)
  | 0, _ => Option.none
  | fuel + 1, s =>
    match recvPacket s with
    | (some p, _) => some p
    | (Option.none, r) => if s = [] then Option.none else recvLoopGo fuel r

/-- The first payload the receive loop delivers from a byte stream. -/
def recvLoop (s : List Nat) : Option (List Nat) :=
  recvLoopGo (s.length + 1) s

/-- A well-formed frame for a payload (`send_packet` framing). -/
def mkFrame (p : List Nat) : List Nat :=
  startRun ++ 2 :: (le4 p.length ++ (p ++ endRun))

/-! ## Client send path (`MessagingClient.send_packet`) -/

/-- UTF-8 encoding of one character. -/
def utf8Char (c : Char) : List Nat :=
  let n := c.toNat
  if n < 128 then [n]
  else if n < 2048 then [192 + n / 64, 128 + n % 64]
  else if n < 65536 then [224 + n / 4096, 128 + n / 64 % 64, 128 + n % 64]
  else [240 + n / 262144, 128 + n / 4096 % 64, 128 + n / 64 % 64, 128 + n % 64]

/-- UTF-8 encoding of a string (`str.encode('utf-8')`). -/
def utf8Bytes : List Char → List Nat
  | [] => []
  | c :: r => utf8Char c ++ utf8Bytes r

/-- The client state `send_packet` reads: connection flag and current
identity. -/
structure ClientSt where
  connected : Bool
  srcId : List Char
  srcSub : List Char

/-- Result of a `send_packet` call: return value, bytes written to the
socket, and the packet object afterwards. -/
structure SendResult where
  ok : Bool
  sent : List Nat
  packet : ContainerM

/-- `MessagingClient.send_packet`: refuse without a socket or without a
target id (writing nothing); fill the empty source identity from the
client; serialize and write one frame.  The serialize call also writes
the container's cache back (`_data_string`, `_deserialized`), which is
reflected in the returned packet state. -/
def sendPacket (st : ClientSt) (p : ContainerM) : SendResult :=
  if st.connected = false then ⟨false, [], p⟩
  else if p.h1 = [] then ⟨false, [], p⟩
  else
    let p1 := if p.h3 = [] then { p with h3 := st.srcId, h4 := st.srcSub } else p
    let bytes := utf8Bytes (containerSerialize p1)
    let p2 := { p1 with
      dataString := if p1.deserialized then makeDataString p1.values else p1.dataString
      deserialized := false }
    if bytes.length < 4294967296 then
      ⟨true, startRun ++ 2 :: (le4 bytes.length ++ (bytes ++ endRun)), p2⟩
    else ⟨false, [], p2⟩

/-- The packet after `send_packet` fills an empty source identity from
the client. -/
def fillSrc (st : ClientSt) (p : ContainerM) : ContainerM :=
  if p.h3 = [] then { p with h3 := st.srcId, h4 := st.srcSub } else p

/-! ## Server disconnect path (`MessagingServer._disconnect_client`) -/

/-- A tracked session record (the fields the disconnect path reads). -/
structure SessionR where
  sid : List Char
  clientId : List Char
deriving DecidableEq

/-- A Python runtime error surfacing from the disconnect path. -/
inductive PyErr where
  | nameErr
deriving DecidableEq

/-- `dict.pop(key, None)` on the session registry. -/
def popSession : List (List Char × SessionR) → List Char → Option SessionR × List (List Char × SessionR)
  | [], _ => (Option.none, [])
  | (k, v) :: r, key =>
    if k = key then (some v, r)
    else
      let p := popSession r key
      (p.1, (k, v) :: p.2)

/-- Outcome of `_disconnect_client`: registry afterwards, error raised
if any, whether the socket was closed, and the argument passed to the
disconnect callback if it was invoked. -/
structure DiscResult where
  registry : List (List Char × SessionR)
  raised : Option PyErr
  closedSocket : Bool
  callbackArg : Option (List Char)
deriving DecidableEq

/-- `MessagingServer._disconnect_client`: pop the session; when one was
tracked, evaluate `session.client_id or session_session_id` — the
second disjunct is an undefined name, so an empty client id raises
`NameError` after the registry removal, before the socket close and the
callback. -/
def disconnectClient (clients : List (List Char × SessionR)) (sid : List Char) : DiscResult :=
  let p := popSession clients sid
  match p.1 with
  | Option.none => ⟨p.2, Option.none, false, Option.none⟩
  | some sess =>
    if sess.clientId ≠ [] then ⟨p.2, Option.none, true, some sess.clientId⟩
    else ⟨p.2, some PyErr.nameErr, false, Option.none⟩

/-! ## Well-formedness for the serialize/parse round trip (claim C1) -/

/-- The two-character terminator `];`. -/
def ebrk : List Char := [']', ';']

/-- The two-character block closer `};`. -/
def cbrk : List Char := ['\x7d', ';']

/-- Names the entry pattern re-reads exactly: non-empty, word
characters only. -/
def wfNameB (n : List Char) : Bool := !(n = []) && n.all isWordChar

/-- The encoded payload must survive the entry grammar: no `];` or `};`
inside it and no leading `[\s?]` class character (which the pattern
would strip), and the decoded payload must be sentinel-free so that
decoding undoes encoding. -/
def payloadOkB (vs : List Char) : Bool :=
  sentinelFreeB vs && !(hasSub ebrk (encodeValue vs)) && !(hasSub cbrk (encodeValue vs)) &&
    (match encodeValue vs with
     | [] => true
     | c :: _ => !isClassChar c)

/-- A header value must not disturb the block or entry grammar. -/
def headerValOkB (h : List Char) : Bool :=
  h.all (fun c => !(c = '@' || c = '\x7d' || c = ']' || c = '\r' || c = '\n'))

/-- Emptiness test for a forest. -/
def isNilF : List VTree → Bool
  | [] => true
  | _ => false

/-- Whether the last value of a forest is of non-CONTAINER kind. -/
def lastNonContainer : List VTree → Bool
  | [] => false
  | [v] => !(typeOf (vts v) = .containerK)
  | _ :: w :: r => lastNonContainer (w :: r)

mutual
/-- Round-trip well-formedness of one value; `fin` records whether the
node's entries end the data stream (nothing follows at any ancestor
level).  CONTAINER nodes carry the exact decimal child count and, when
not final, end with a non-CONTAINER child (the source closes an open
container only on a non-CONTAINER append); non-CONTAINER nodes are
childless and not NULL. -/
def wfV : VTree → Bool → Bool
  | .node n t v ch, fin =>
    wfNameB n && (!(t = []) && t.all isWordChar) && payloadOkB v &&
      (if typeOf t = .containerK then
        decide (v = natToChars ch.length) && wfF ch fin &&
          (fin || (!(isNilF ch) && lastNonContainer ch))
      else !(typeOf t = .nullK) && isNilF ch)
/-- Round-trip well-formedness of a forest: all but the last value must
close themselves. -/
def wfF : List VTree → Bool → Bool
  | [], _ => true
  | [v], fin => wfV v fin
  | v :: w :: r, fin => wfV v false && wfF (w :: r) fin
end

/-- The hypotheses of the amended round-trip statement: the value
forest is authoritative, the header values stay clear of the block
grammar, and the forest is round-trip well-formed. -/
def goodContainerB (c : ContainerM) : Bool :=
  c.deserialized && headerValOkB c.h1 && headerValOkB c.h2 && headerValOkB c.h3 &&
    headerValOkB c.h4 && headerValOkB c.h5 && headerValOkB c.h6 && wfF c.values true

/-! ## Derived text and state helpers used by the round-trip proof -/

/-- The wire form of a flat entry: payload escape-encoded. -/
def encTriple (e : List Char × List Char × List Char) :
    List Char × List Char × List Char :=
  (e.1, e.2.1, encodeValue e.2.2)

/-- Concatenated entry texts of a flat wire entry list. -/
def entsText : List (List Char × List Char × List Char) → List Char
  | [] => []
  | e :: r => entryText e.1 e.2.1 e.2.2 ++ entsText r

/-- Conditions under which one wire entry is re-read exactly by the
entry pattern: word name and type tag, no `];` or `};` inside the
payload text and no leading `[\s?]` class character. -/
def entryOkB (e : List Char × List Char × List Char) : Bool :=
  wfNameB e.1 && wfNameB e.2.1 && !(hasSub ebrk e.2.2) && !(hasSub cbrk e.2.2) &&
    (match e.2.2 with
     | [] => true
     | c :: _ => !isClassChar c)

/-- Append a list of finished children to an open frame. -/
def appendChildren (f : BFrame) (l : List VTree) : BFrame :=
  { f with children := f.children ++ l }

mutual
/-- The precondition stated by the round-trip claim itself: every
CONTAINER-kind node's raw payload equals the decimal count of its
direct children. -/
def countsOkV : VTree → Bool
  | .node _ t v ch =>
    (if typeOf t = .containerK then decide (v = natToChars ch.length) else true) &&
      countsOkF ch
/-- `countsOkV` over a forest. -/
def countsOkF : List VTree → Bool
  | [] => true
  | v :: r => countsOkV v && countsOkF r
end

/-- A container meeting the round-trip claim's own precondition (forest
authoritative, every CONTAINER count exact) whose round trip
nevertheless fails: the empty container `c` is not closed before the
sibling `z`, so the parse absorbs `z` into `c`. -/
def c1cex : ContainerM :=
  containerCreate ['t'] [] [] [] ['m']
    [.node ['c'] ['e'] ['0'] [], .node ['z'] ['f'] ['x'] []]

/-- A nested well-formed container exercising the proved round trip:
two levels of CONTAINER nesting, escape-encoded payloads and populated
headers. -/
def c1wit : ContainerM :=
  containerCreate "tgt".toList "sub_1".toList "src".toList [] "msg".toList
    [.node "p".toList ['e'] ['2']
      [.node "s".toList ['e'] ['1'] [.node "y".toList ['f'] "z".toList []],
       .node "a".toList ['f'] "x y".toList []],
     .node "q".toList ['f'] "w,w".toList []]

/-! # Theorems -/

/-! ## Structural equality of value trees -/

mutual
theorem beqV_iff : ∀ x y : VTree, beqV x y = true ↔ x = y
  | .node n1 t1 v1 c1, .node n2 t2 v2 c2 => by
    simp only [beqV, Bool.and_eq_true, decide_eq_true_eq, VTree.node.injEq]
    rw [beqF_iff c1 c2]
    tauto
theorem beqF_iff : ∀ x y : List VTree, beqF x y = true ↔ x = y
  | [], [] => by simp [beqF]
  | [], _ :: _ => by simp [beqF]
  | _ :: _, [] => by simp [beqF]
  | x :: xs, y :: ys => by
    simp only [beqF, Bool.and_eq_true, List.cons.injEq]
    rw [beqV_iff x y, beqF_iff xs ys]
end

instance : DecidableEq VTree := fun x y =>
  decidable_of_iff (beqV x y = true) (beqV_iff x y)

/-! ## Basic prefix / substring lemmas -/

theorem isPre_append_self (u v : List Char) : isPre u (u ++ v) = true := by
  induction u with
  | nil => simp [isPre]
  | cons a as ih => simp [isPre, ih]

theorem isPre_length_le {u v : List Char} (h : isPre u v = true) : u.length ≤ v.length := by
  induction u generalizing v with
  | nil => simp
  | cons a as ih =>
    cases v with
    | nil => simp [isPre] at h
    | cons b bs =>
      simp only [isPre, Bool.and_eq_true, decide_eq_true_eq] at h
      simpa [Nat.succ_le_succ_iff] using ih h.2

theorem isPre_take {u v : List Char} (h : isPre u v = true) : v.take u.length = u := by
  induction u generalizing v with
  | nil => simp
  | cons a as ih =>
    cases v with
    | nil => simp [isPre] at h
    | cons b bs =>
      simp only [isPre, Bool.and_eq_true, decide_eq_true_eq] at h
      simp [List.take, ih h.2, h.1]

theorem isPre_eq_of_length {u v r : List Char} (hl : u.length = v.length)
    (h : isPre u (v ++ r) = true) : u = v := by
  have ht := isPre_take h
  rw [hl, List.take_left] at ht
  exact ht.symm

theorem isPre_append_of (u v r : List Char) (h : isPre u v = true) :
    isPre u (v ++ r) = true := by
  induction u generalizing v with
  | nil => simp [isPre]
  | cons a as ih =>
    cases v with
    | nil => simp [isPre] at h
    | cons b bs =>
      simp only [isPre, Bool.and_eq_true, decide_eq_true_eq] at h ⊢
      exact ⟨h.1, ih bs h.2⟩

theorem hasSub_cons (pat : List Char) (c : Char) (s : List Char) :
    hasSub pat (c :: s) = (isPre pat (c :: s) || hasSub pat s) := rfl

theorem hasSub_of_tail {pat : List Char} {c : Char} {s : List Char}
    (h : hasSub pat (c :: s) = false) : hasSub pat s = false := by
  simp only [hasSub_cons, Bool.or_eq_false_iff] at h
  exact h.2

theorem isPre_false_of_hasSub_false {pat s : List Char}
    (h : hasSub pat s = false) (hne : s ≠ []) : isPre pat s = false := by
  cases s with
  | nil => exact absurd rfl hne
  | cons c r =>
    simp only [hasSub_cons, Bool.or_eq_false_iff] at h
    exact h.1

/-! ## Claim C6: parent-link invariant -/

theorem mem_setNode_self (h : Heap) (i : Nat) (nd : PNode) : setNode h i nd i = nd := by
  simp [setNode]

theorem setNode_other (h : Heap) (i j : Nat) (nd : PNode) (hne : j ≠ i) :
    setNode h i nd j = h j := by
  simp [setNode, hne]

/-- Claim C6 (counterexample): after `p.append(c); p.remove("x")` the
removed child keeps `parent = p` while `p.children` no longer contains
it, so the parent-link invariant is not preserved by `remove`.  Node 0
is the parent named `p`, node 1 the child named `x`. -/
theorem thmC6_counterexample :
    ((heapRemove (heapAppend
        (fun i => if i = 0 then ⟨"p".toList, [], Option.none⟩ else ⟨"x".toList, [], Option.none⟩)
        0 1) 0 "x".toList) 1).pparent = some 0 ∧
    ¬ (1 ∈ ((heapRemove (heapAppend
        (fun i => if i = 0 then ⟨"p".toList, [], Option.none⟩ else ⟨"x".toList, [], Option.none⟩)
        0 1) 0 "x".toList) 0).pchildren) := by
  constructor
  · rfl
  · decide

/-- Claim C6 (amended): `Value.append` does preserve the parent-link
invariant (it sets the child's parent and pushes the child); the
invariant fails only through `Value.remove`, which leaves the removed
children's parent links dangling. -/
theorem thmC6_append_preserves_inv (h : Heap) (p c : Nat) (hinv : ParentInv h) :
    ParentInv (heapAppend h p c) := by
  have he : ∀ j, heapAppend h p c j =
      if j = p then
        (if p = c then ⟨(h c).pname, (h c).pchildren ++ [c], some p⟩
         else ⟨(h p).pname, (h p).pchildren ++ [c], (h p).pparent⟩)
      else if j = c then ⟨(h c).pname, (h c).pchildren, some p⟩
      else h j := by
    intro j
    by_cases hjp : j = p
    · subst hjp
      by_cases hpc : j = c
      · subst hpc
        simp [heapAppend, setNode]
      · simp [heapAppend, setNode, hpc]
    · by_cases hjc : j = c
      · subst hjc
        simp [heapAppend, setNode, hjp]
      · simp [heapAppend, setNode, hjp, hjc]
  intro v q hq
  rw [he] at hq
  rw [he]
  by_cases hvp : v = p
  · subst hvp
    by_cases hpc : v = c
    · rw [if_pos rfl, if_pos hpc] at hq
      simp only [Option.some.injEq] at hq
      subst hq
      rw [if_pos rfl, if_pos hpc]
      subst hpc
      exact List.mem_append_right _ (by simp)
    · rw [if_pos rfl, if_neg hpc] at hq
      have hm := hinv v q hq
      by_cases hqp : q = v
      · subst hqp
        rw [if_pos rfl, if_neg hpc]
        exact List.mem_append_left _ hm
      · rw [if_neg hqp]
        by_cases hqc : q = c
        · subst hqc
          rw [if_pos rfl]
          exact hm
        · rw [if_neg hqc]
          exact hm
  · by_cases hvc : v = c
    · subst hvc
      rw [if_neg hvp, if_pos rfl] at hq
      simp only [Option.some.injEq] at hq
      subst hq
      rw [if_pos rfl]
      have hpv : ¬ (p = v) := fun hh => hvp hh.symm
      rw [if_neg hpv]
      exact List.mem_append_right _ (by simp)
    · rw [if_neg hvp, if_neg hvc] at hq
      have hm := hinv v q hq
      by_cases hqp : q = p
      · subst hqp
        rw [if_pos rfl]
        by_cases hpc : q = c
        · rw [if_pos hpc]
          rw [← hpc]
          exact List.mem_append_left _ hm
        · rw [if_neg hpc]
          exact List.mem_append_left _ hm
      · rw [if_neg hqp]
        by_cases hqc : q = c
        · subst hqc
          rw [if_pos rfl]
          exact hm
        · rw [if_neg hqc]
          exact hm

/-- Witness for the amended C6 theorem at a concrete heap in which no
parent link is set. -/
theorem thmC6_witness :
    ParentInv (heapAppend (fun _ => ⟨"n".toList, [], Option.none⟩) 0 1) :=
  thmC6_append_preserves_inv _ 0 1 (by intro v q hq; simp at hq)

/-! ## Claim C8: the server disconnect path -/

/-- Claim C8: `_disconnect_client` on a session whose client identity
was never assigned evaluates the undefined name `session_session_id`
and raises `NameError` after the registry removal — the socket is not
closed and the disconnect callback is not invoked; with an assigned
identity the path completes and invokes the callback once with it. -/
theorem thmC8_disconnect_eval :
    disconnectClient [("s1".toList, ⟨"s1".toList, []⟩)] "s1".toList =
      ⟨[], some PyErr.nameErr, false, Option.none⟩ ∧
    disconnectClient [("s1".toList, ⟨"s1".toList, "cli".toList⟩)] "s1".toList =
      ⟨[], Option.none, true, some "cli".toList⟩ := by
  constructor
  · rfl
  · rfl

/-! ## Claim C5: frame reading and (absent) resynchronization -/

theorem leDec4_le4 (n : Nat) (h : n < 4294967296) : leDec4 (le4 n) = n := by
  simp only [le4, leDec4]
  omega

theorem readRunB_start (rest : List Nat) :
    readRunB 4 231 (231 :: 231 :: 231 :: 231 :: rest) = (true, rest) := by
  simp [readRunB]

theorem readRunB_end (rest : List Nat) :
    readRunB 4 67 (67 :: 67 :: 67 :: 67 :: rest) = (true, rest) := by
  simp [readRunB]

/-- A single `_receive_packet` call on a stream beginning with a
well-formed frame returns its payload and consumes exactly the frame. -/
theorem recvPacket_frame (p : List Nat) (h : p.length < 4294967296) :
    recvPacket (mkFrame p) = (some p, []) := by
  have hsplit : mkFrame p = 231 :: 231 :: 231 :: 231 :: (2 :: (le4 p.length ++ (p ++ endRun))) := rfl
  rw [hsplit]
  simp only [recvPacket, readRunB_start]
  have hlen4 : (le4 p.length).length = 4 := rfl
  have htake : (le4 p.length ++ (p ++ endRun)).take 4 = le4 p.length := by
    rw [← hlen4]
    exact List.take_left _ _
  have hdrop : (le4 p.length ++ (p ++ endRun)).drop 4 = p ++ endRun := by
    rw [← hlen4]
    exact List.drop_left _ _
  simp only [htake, hdrop, hlen4, leDec4_le4 p.length h]
  have hlen2 : (p ++ endRun).length = p.length + 4 := by simp [endRun]
  have hnlt : ¬ ((p ++ endRun).length < p.length) := by
    rw [hlen2]
    omega
  have htake2 : (p ++ endRun).take p.length = p := List.take_left _ _
  have hdrop2 : (p ++ endRun).drop p.length = endRun := List.drop_left _ _
  simp only [hnlt, htake2, hdrop2, if_false]
  have hend : readRunB 4 67 endRun = (true, []) := rfl
  simp [hend]

/-- Junk bytes that never match the start byte are consumed one per
loop iteration without touching the following frame. -/
theorem recvLoopGo_skip_junk (p : List Nat) (hp : p.length < 4294967296) :
    ∀ junk fuel, (∀ b ∈ junk, b ≠ 231) → 1 ≤ fuel →
      recvLoopGo (junk.length + fuel) (junk ++ mkFrame p) = some p := by
  intro junk
  induction junk with
  | nil =>
    intro fuel _ hf
    obtain ⟨f, rfl⟩ : ∃ f, fuel = f + 1 := ⟨fuel - 1, by omega⟩
    simp [recvLoopGo, recvPacket_frame p hp]
  | cons b junk ih =>
    intro fuel hb hf
    have hbne : b ≠ 231 := hb b (by simp)
    have hstep : recvPacket ((b :: junk) ++ mkFrame p) = (Option.none, junk ++ mkFrame p) := by
      simp [recvPacket, readRunB, hbne]
    have hlen : (b :: junk).length + fuel = (junk.length + fuel) + 1 := by
      simp only [List.length_cons]
      omega
    rw [hlen]
    simp only [recvLoopGo, hstep]
    have hne : ¬ ((b :: junk) ++ mkFrame p = []) := by simp
    simp only [hne, if_false]
    exact ih fuel (fun x hx => hb x (by simp [hx])) hf

/-- Claim C5 (amended): the receive routine does not resynchronize — a
mismatched byte is consumed, not re-examined — but the client's receive
loop retries, so a junk prefix containing no START byte at all is
discarded one byte per call and the following frame's payload is still
returned. -/
theorem thmC5_recvLoop_junk (junk p : List Nat)
    (hj : ∀ b ∈ junk, b ≠ 231) (hp : p.length < 4294967296) :
    recvLoop (junk ++ mkFrame p) = some p := by
  unfold recvLoop
  have hlen : (junk ++ mkFrame p).length + 1 = junk.length + ((mkFrame p).length + 1) := by
    simp [Nat.add_assoc]
  rw [hlen]
  exact recvLoopGo_skip_junk p hp junk ((mkFrame p).length + 1) hj (by omega)

/-- Witness for the amended C5 theorem: the §8 scenario-4 stream (junk
`00 00` before a frame with payload byte 65). -/
theorem thmC5_witness : recvLoop ([0, 0] ++ mkFrame [65]) = some [65] :=
  thmC5_recvLoop_junk [0, 0] [65] (by decide) (by decide)

/-- Claim C5 (counterexample): a junk prefix consisting of one single
START byte contains no run of four START bytes, yet the frame that
follows it is lost — the partial start-run match swallows the frame's
own start run, the type check fails, and the stream never recovers;
the frame alone (no junk) is decoded fine. -/
theorem thmC5_counterexample :
    ([231] : List Nat).length < 4 ∧
    recvLoop ([231] ++ mkFrame [65]) = Option.none ∧
    recvLoop (mkFrame [65]) = some [65] := by
  refine ⟨by decide, ?_, ?_⟩
  · decide
  · decide

/-! ## Claim C9: client send preconditions -/

/-- Claim C9: `send_packet` returns False writing nothing and leaving
the packet untouched when the client has no socket or the packet has no
target id; otherwise it fills an empty source identity from the client
and writes exactly one well-formed frame around the serialized packet,
returning True (the length guard reflects `to_bytes(4, ...)`). -/
theorem thmC9_sendPacket (st : ClientSt) (p : ContainerM) :
    ((st.connected = false ∨ p.h1 = []) → sendPacket st p = ⟨false, [], p⟩) ∧
    (st.connected = true → p.h1 ≠ [] →
      (utf8Bytes (containerSerialize (fillSrc st p))).length < 4294967296 →
      ((sendPacket st p).ok = true ∧
        (sendPacket st p).sent = mkFrame (utf8Bytes (containerSerialize (fillSrc st p))) ∧
        (fillSrc st p).h3 = (if p.h3 = [] then st.srcId else p.h3) ∧
        (fillSrc st p).h4 = (if p.h3 = [] then st.srcSub else p.h4) ∧
        (sendPacket st p).packet.h3 = (fillSrc st p).h3 ∧
        (sendPacket st p).packet.h4 = (fillSrc st p).h4)) := by
  constructor
  · intro h
    rcases h with h | h
    · simp [sendPacket, h]
    · by_cases hc : st.connected = false
      · simp [sendPacket, hc]
      · simp [sendPacket, hc, h]
  · intro hc hne hlen
    have hcf : ¬ (st.connected = false) := by simp [hc]
    simp only [sendPacket, fillSrc] at hlen ⊢
    simp only [hcf, if_false, hne, if_neg hne]
    by_cases h3 : p.h3 = []
    · simp only [h3, if_true, if_pos rfl] at hlen ⊢
      simp [hlen, mkFrame]
    · simp only [if_neg h3] at hlen ⊢
      simp [hlen, mkFrame, h3]

/-- Witness for C9 at concrete states: a disconnected client refuses; a
connected client with a target sends and reports success. -/
theorem thmC9_witness :
    sendPacket ⟨false, [], []⟩ (containerCreate "srv".toList [] [] [] "m".toList []) =
      ⟨false, [], containerCreate "srv".toList [] [] [] "m".toList []⟩ ∧
    (sendPacket ⟨true, "me".toList, "s".toList⟩
        (containerCreate "srv".toList [] [] [] "m".toList [])).ok = true :=
  ⟨(thmC9_sendPacket ⟨false, [], []⟩ _).1 (Or.inl rfl),
   ((thmC9_sendPacket ⟨true, "me".toList, "s".toList⟩ _).2 rfl (by decide) (by decide)).1⟩

/-! ## Claim C4: the escape round trip -/

theorem expandM_nil (m : Char → Option (List Char)) : expandM m [] = [] := rfl

theorem expandM_cons (m : Char → Option (List Char)) (c : Char) (t : List Char) :
    expandM m (c :: t) = (m c).getD [c] ++ expandM m t := rfl

theorem cmap_congr (f g : Char → List Char) (h : ∀ c, f c = g c) :
    ∀ s, cmap f s = cmap g s
  | [] => rfl
  | c :: t => by simp [cmap, h c, cmap_congr f g h t]

theorem cmap_append (f : Char → List Char) (x y : List Char) :
    cmap f (x ++ y) = cmap f x ++ cmap f y := by
  induction x with
  | nil => rfl
  | cons c t ih => simp [cmap, ih]

theorem cmap_cmap (f g : Char → List Char) (s : List Char) :
    cmap g (cmap f s) = cmap (fun c => cmap g (f c)) s := by
  induction s with
  | nil => rfl
  | cons c t ih => simp [cmap, cmap_append, ih]

theorem replaceGo_single (p : Char) (rep : List Char) :
    ∀ s fuel, s.length ≤ fuel →
      replaceGo fuel [p] rep s = cmap (fun c => if c = p then rep else [c]) s := by
  intro s
  induction s with
  | nil => intro fuel _; cases fuel <;> simp [replaceGo, cmap]
  | cons c t ih =>
    intro fuel hf
    obtain ⟨f, rfl⟩ : ∃ f, fuel = f + 1 := ⟨fuel - 1, by simp at hf; omega⟩
    have hft : t.length ≤ f := by simp at hf; omega
    by_cases hpc : p = c
    · have hpre : isPre [p] (c :: t) = true := by
        simp [isPre, hpc]
      simp only [replaceGo, hpre, if_true]
      simp only [List.length_cons, List.length_nil, Nat.zero_add, Nat.sub_self, List.drop_zero]
      rw [ih f hft]
      simp [cmap, hpc.symm]
    · have hpre : isPre [p] (c :: t) = false := by
        simp [isPre, hpc]
      simp only [replaceGo, hpre, if_false]
      rw [ih f hft]
      have hcp : ¬ (c = p) := fun hh => hpc hh.symm
      simp [cmap, hcp]

theorem pyReplace_single (p : Char) (rep s : List Char) :
    pyReplace [p] rep s = cmap (fun c => if c = p then rep else [c]) s :=
  replaceGo_single p rep s s.length (Nat.le_refl _)

/-- Encoding really is character-by-character expansion through the
escape map: the later passes never touch the sentinels inserted by the
earlier ones. -/
theorem encodeValue_expand (s : List Char) : encodeValue s = expandM escMap s := by
  unfold encodeValue
  rw [pyReplace_single, pyReplace_single, pyReplace_single, pyReplace_single]
  rw [cmap_cmap, cmap_cmap, cmap_cmap]
  unfold expandM
  apply cmap_congr
  intro c
  by_cases h1 : c = '\r'
  · subst h1; rfl
  · by_cases h2 : c = '\n'
    · subst h2; rfl
    · by_cases h3 : c = ' '
      · subst h3; rfl
      · by_cases h4 : c = '\t'
        · subst h4; rfl
        · simp [cmap, escMap, h1, h2, h3, h4]

theorem replaceGo_skip_plain (pat rep ptl : List Char) (hpat : pat = '<' :: ptl) :
    ∀ u rest fuel, (∀ ch ∈ u, ch ≠ '<') →
      replaceGo (u.length + fuel) pat rep (u ++ rest) = u ++ replaceGo fuel pat rep rest := by
  intro u
  induction u with
  | nil => intro rest fuel _; simp
  | cons x u ih =>
    intro rest fuel hu
    have hx : x ≠ '<' := hu x (by simp)
    have hpre : isPre pat (x :: (u ++ rest)) = false := by
      rw [hpat]
      simp only [isPre]
      rw [decide_eq_false (fun hh => hx hh.symm)]
      simp
    have hlen : (x :: u).length + fuel = (u.length + fuel) + 1 := by
      simp only [List.length_cons]
      omega
    rw [hlen, List.cons_append]
    have hstep : replaceGo ((u.length + fuel) + 1) pat rep (x :: (u ++ rest)) =
        x :: replaceGo (u.length + fuel) pat rep (u ++ rest) := by
      simp only [replaceGo, hpre]
      simp
    rw [hstep, ih rest fuel (fun ch hch => hu ch (by simp [hch]))]
    rfl

/-- A match of non-`<` characters against an expanded string lies
entirely in the plain characters, because every escape block begins
with `<`. -/
theorem isPre_plain_of_expand (m : Char → Option (List Char))
    (hblk : ∀ c b, m c = some b → ∃ tl, b = '<' :: tl) :
    ∀ t u, (∀ ch ∈ u, ch ≠ '<') → isPre u (expandM m t) = true → isPre u t = true := by
  intro t
  induction t with
  | nil =>
    intro u hu h
    cases u with
    | nil => rfl
    | cons a u2 => simp [expandM, cmap, isPre] at h
  | cons d t ih =>
    intro u hu h
    cases u with
    | nil => rfl
    | cons a u2 =>
      have hane : a ≠ '<' := hu a (by simp)
      cases hmd : m d with
      | none =>
        rw [expandM_cons, hmd] at h
        simp only [Option.getD_none, List.singleton_append] at h
        simp only [isPre, Bool.and_eq_true, decide_eq_true_eq] at h ⊢
        exact ⟨h.1, ih u2 (fun ch hch => hu ch (by simp [hch])) h.2⟩
      | some b =>
        obtain ⟨tl, rfl⟩ := hblk d b hmd
        rw [expandM_cons, hmd] at h
        simp only [Option.getD_some, List.cons_append] at h
        simp only [isPre, Bool.and_eq_true, decide_eq_true_eq] at h
        exact absurd h.1 hane

/-- One decoding pass over an encoded string: replacing the sentinel of
one escaped character restores that character and leaves every other
block alone (no sentinel occurs in the plain text and blocks cannot
straddle). -/
theorem replaceGo_decode_pass (m m' : Char → Option (List Char))
    (pat ptl : List Char) (c0 : Char)
    (hpat : pat = '<' :: ptl) (hptl : ∀ ch ∈ ptl, ch ≠ '<')
    (hm0 : m c0 = some pat)
    (hmm : ∀ c, m' c = if c = c0 then Option.none else m c)
    (hblk : ∀ c b, m c = some b → b.length = pat.length ∧ ∃ tl, b = '<' :: tl ∧ ∀ ch ∈ tl, ch ≠ '<')
    (hdiff : ∀ c b, c ≠ c0 → m c = some b → b ≠ pat) :
    ∀ s fuel, (expandM m s).length ≤ fuel → hasSub pat s = false →
      replaceGo fuel pat [c0] (expandM m s) = expandM m' s := by
  intro s
  induction s with
  | nil => intro fuel _ _; cases fuel <;> simp [replaceGo, expandM, cmap]
  | cons c t ih =>
    intro fuel hf hs
    have hst : hasSub pat t = false := hasSub_of_tail hs
    cases hmc : m c with
    | some b =>
      obtain ⟨hbl, tl, hbtl, htl⟩ := hblk c b hmc
      by_cases hbp : b = pat
      · -- the block is this pass's sentinel: replace it by c0 = c
        have hcc0 : c = c0 := by
          by_contra hne
          exact (hdiff c b hne hmc) hbp
        have hexp : expandM m (c :: t) = '<' :: (ptl ++ expandM m t) := by
          rw [expandM_cons, hmc, hbp, hpat]
          rfl
        rw [hexp] at hf ⊢
        obtain ⟨f, rfl⟩ : ∃ f, fuel = f + 1 := by
          refine ⟨fuel - 1, ?_⟩
          have h1 : 1 ≤ ('<' :: (ptl ++ expandM m t)).length := by simp
          omega
        have hpre : isPre pat ('<' :: (ptl ++ expandM m t)) = true := by
          have h1 := isPre_append_self pat (expandM m t)
          rw [hpat] at h1
          rw [hpat]
          simpa using h1
        have hstep : replaceGo (f + 1) pat [c0] ('<' :: (ptl ++ expandM m t)) =
            [c0] ++ replaceGo f pat [c0] ((ptl ++ expandM m t).drop (pat.length - 1)) := by
          simp only [replaceGo, hpre]
          simp
        rw [hstep]
        have hdrop : (ptl ++ expandM m t).drop (pat.length - 1) = expandM m t := by
          have hl : pat.length - 1 = ptl.length := by
            rw [hpat]
            simp
          rw [hl]
          exact List.drop_left _ _
        rw [hdrop]
        have hft : (expandM m t).length ≤ f := by
          simp only [List.length_cons, List.length_append] at hf
          omega
        rw [ih f hft hst]
        rw [expandM_cons, hmm c, if_pos hcc0]
        simp [hcc0]
      · -- a different block: step over it unchanged
        have hcc0 : c ≠ c0 := by
          intro hh
          rw [hh, hm0] at hmc
          injection hmc with hh2
          exact hbp hh2.symm
        have hexp : expandM m (c :: t) = '<' :: (tl ++ expandM m t) := by
          rw [expandM_cons, hmc, hbtl]
          rfl
        rw [hexp] at hf ⊢
        obtain ⟨f, rfl⟩ : ∃ f, fuel = f + 1 := by
          refine ⟨fuel - 1, ?_⟩
          have h1 : 1 ≤ ('<' :: (tl ++ expandM m t)).length := by simp
          omega
        have hpre : isPre pat ('<' :: (tl ++ expandM m t)) = false := by
          cases hip : isPre pat ('<' :: (tl ++ expandM m t)) with
          | false => rfl
          | true =>
            exfalso
            have hlp : pat.length = ('<' :: tl).length := by
              rw [← hbtl, hbl]
            have h2 : isPre pat (('<' :: tl) ++ expandM m t) = true := by
              simpa using hip
            have h3 := isPre_eq_of_length hlp h2
            rw [← hbtl] at h3
            exact hbp h3.symm
        have hstep : replaceGo (f + 1) pat [c0] ('<' :: (tl ++ expandM m t)) =
            '<' :: replaceGo f pat [c0] (tl ++ expandM m t) := by
          simp only [replaceGo, hpre]
          simp
        rw [hstep]
        have hftl : tl.length + (f - tl.length) = f := by
          simp only [List.length_cons, List.length_append] at hf
          omega
        have hskip : replaceGo f pat [c0] (tl ++ expandM m t) =
            tl ++ replaceGo (f - tl.length) pat [c0] (expandM m t) := by
          have h0 := replaceGo_skip_plain pat [c0] ptl hpat tl (expandM m t) (f - tl.length) htl
          rw [hftl] at h0
          exact h0
        rw [hskip]
        have hft : (expandM m t).length ≤ f - tl.length := by
          simp only [List.length_cons, List.length_append] at hf
          omega
        rw [ih (f - tl.length) hft hst]
        have hrhs : expandM m' (c :: t) = '<' :: (tl ++ expandM m' t) := by
          rw [expandM_cons, hmm c, if_neg hcc0, hmc, hbtl]
          rfl
        rw [hrhs]
    | none =>
      have hcc0 : c ≠ c0 := by
        intro hh
        rw [hh, hm0] at hmc
        cases hmc
      have hexp : expandM m (c :: t) = c :: expandM m t := by
        rw [expandM_cons, hmc]
        rfl
      rw [hexp] at hf ⊢
      obtain ⟨f, rfl⟩ : ∃ f, fuel = f + 1 := by
        refine ⟨fuel - 1, ?_⟩
        have h1 : 1 ≤ (c :: expandM m t).length := by simp
        omega
      have hpre : isPre pat (c :: expandM m t) = false := by
        rw [hpat]
        by_cases hc : c = '<'
        · subst hc
          cases hpp : isPre ptl (expandM m t) with
          | false => simp [isPre, hpp]
          | true =>
            exfalso
            have h2 := isPre_plain_of_expand m
              (fun c2 b2 hb2 => ⟨((hblk c2 b2 hb2).2).choose, ((hblk c2 b2 hb2).2).choose_spec.1⟩)
              t ptl hptl hpp
            have h3 : isPre pat ('<' :: t) = true := by
              rw [hpat]
              simp [isPre, h2]
            rw [hasSub_cons, h3] at hs
            simp at hs
        · simp only [isPre]
          rw [decide_eq_false (fun hh => hc hh.symm)]
          simp
      have hstep : replaceGo (f + 1) pat [c0] (c :: expandM m t) =
          c :: replaceGo f pat [c0] (expandM m t) := by
        simp only [replaceGo, hpre]
        simp
      rw [hstep]
      have hft : (expandM m t).length ≤ f := by
        simp only [List.length_cons] at hf
        omega
      rw [ih f hft hst]
      have hrhs : expandM m' (c :: t) = c :: expandM m' t := by
        rw [expandM_cons, hmm c, if_neg hcc0, hmc]
        rfl
      rw [hrhs]

theorem cmap_id : ∀ s : List Char, cmap (fun c => [c]) s = s
  | [] => rfl
  | c :: t => by simp [cmap, cmap_id t]

theorem escMap_blocks (c : Char) (b : List Char) (h : escMap c = some b) :
    b = sentA ∨ b = sentB ∨ b = sentC ∨ b = sentD := by
  simp only [escMap] at h
  split_ifs at h <;> first
    | (injection h with h2; subst h2; simp)
    | cases h

theorem escMap1_blocks (c : Char) (b : List Char) (h : escMap1 c = some b) :
    b = sentB ∨ b = sentC ∨ b = sentD := by
  simp only [escMap1, escMap] at h
  split_ifs at h <;> first
    | (injection h with h2; subst h2; simp)
    | cases h

theorem escMap2_blocks (c : Char) (b : List Char) (h : escMap2 c = some b) :
    b = sentC ∨ b = sentD := by
  simp only [escMap2, escMap1, escMap] at h
  split_ifs at h <;> first
    | (injection h with h2; subst h2; simp)
    | cases h

theorem escMap3_blocks (c : Char) (b : List Char) (h : escMap3 c = some b) :
    b = sentD := by
  simp only [escMap3, escMap2, escMap1, escMap] at h
  split_ifs at h <;> first
    | (injection h with h2; subst h2; simp)
    | cases h

theorem sent_shape (b : List Char) (hb : b = sentA ∨ b = sentB ∨ b = sentC ∨ b = sentD) :
    ∃ tl, b = '<' :: tl ∧ (∀ ch ∈ tl, ch ≠ '<') ∧ tl.length = 7 := by
  rcases hb with rfl | rfl | rfl | rfl
  · exact ⟨"/0x0A;>".toList, by decide, by decide, by decide⟩
  · exact ⟨"/0x0B;>".toList, by decide, by decide, by decide⟩
  · exact ⟨"/0x0C;>".toList, by decide, by decide, by decide⟩
  · exact ⟨"/0x0D;>".toList, by decide, by decide, by decide⟩

theorem sent_length_8 (pat : List Char)
    (hp : pat = sentA ∨ pat = sentB ∨ pat = sentC ∨ pat = sentD) : pat.length = 8 := by
  rcases hp with rfl | rfl | rfl | rfl <;> decide

theorem blocks_shape_generic (pat : List Char)
    (hp : pat = sentA ∨ pat = sentB ∨ pat = sentC ∨ pat = sentD)
    (b : List Char) (hb : b = sentA ∨ b = sentB ∨ b = sentC ∨ b = sentD) :
    b.length = pat.length ∧ ∃ tl, b = '<' :: tl ∧ ∀ ch ∈ tl, ch ≠ '<' := by
  obtain ⟨tl, rfl, htl, hlen⟩ := sent_shape b hb
  refine ⟨?_, tl, rfl, htl⟩
  rw [sent_length_8 pat hp]
  simp [hlen]

/-- The composed escape-roundtrip fact: decoding undoes encoding on any
sentinel-free string. -/
theorem escape_roundtrip_of_sentinelFree (s : List Char) (h : sentinelFreeB s = true) :
    decodeValue (encodeValue s) = s := by
  have hsu : hasSub sentA s = false ∧ hasSub sentB s = false ∧
      hasSub sentC s = false ∧ hasSub sentD s = false := by
    simp only [sentinelFreeB, Bool.and_eq_true, Bool.not_eq_true'] at h
    tauto
  unfold decodeValue
  rw [encodeValue_expand]
  have p1 : pyReplace sentA ['\r'] (expandM escMap s) = expandM escMap1 s := by
    unfold pyReplace
    refine replaceGo_decode_pass escMap escMap1 sentA "/0x0A;>".toList '\r'
      (by decide) (by decide) rfl (fun c => rfl) ?_ ?_ s _ (Nat.le_refl _) hsu.1
    · intro c b hcb
      exact blocks_shape_generic sentA (by simp) b (escMap_blocks c b hcb)
    · intro c b hne hcb
      simp only [escMap] at hcb
      split_ifs at hcb with h1 h2 h3 h4
      · exact absurd h1 hne
      · injection hcb with h5; subst h5; decide
      · injection hcb with h5; subst h5; decide
      · injection hcb with h5; subst h5; decide
  rw [p1]
  have p2 : pyReplace sentB ['\n'] (expandM escMap1 s) = expandM escMap2 s := by
    unfold pyReplace
    refine replaceGo_decode_pass escMap1 escMap2 sentB "/0x0B;>".toList '\n'
      (by decide) (by decide) rfl (fun c => rfl) ?_ ?_ s _ (Nat.le_refl _) hsu.2.1
    · intro c b hcb
      exact blocks_shape_generic sentB (by simp) b (escMap1_blocks c b hcb |>.imp_left id |> Or.inr)
    · intro c b hne hcb
      simp only [escMap1, escMap] at hcb
      split_ifs at hcb
      all_goals first
        | exact Option.noConfusion hcb
        | exact absurd (by assumption) hne
        | (injection hcb with h5; subst h5; decide)
  rw [p2]
  have p3 : pyReplace sentC [' '] (expandM escMap2 s) = expandM escMap3 s := by
    unfold pyReplace
    refine replaceGo_decode_pass escMap2 escMap3 sentC "/0x0C;>".toList ' '
      (by decide) (by decide) rfl (fun c => rfl) ?_ ?_ s _ (Nat.le_refl _) hsu.2.2.1
    · intro c b hcb
      refine blocks_shape_generic sentC (by simp) b ?_
      rcases escMap2_blocks c b hcb with h5 | h5
      · exact Or.inr (Or.inr (Or.inl h5))
      · exact Or.inr (Or.inr (Or.inr h5))
    · intro c b hne hcb
      simp only [escMap2, escMap1, escMap] at hcb
      split_ifs at hcb
      all_goals first
        | exact Option.noConfusion hcb
        | exact absurd (by assumption) hne
        | (injection hcb with h5; subst h5; decide)
  rw [p3]
  have p4 : pyReplace sentD ['\t'] (expandM escMap3 s) = expandM escMap4 s := by
    unfold pyReplace
    refine replaceGo_decode_pass escMap3 escMap4 sentD "/0x0D;>".toList '\t'
      (by decide) (by decide) rfl (fun c => rfl) ?_ ?_ s _ (Nat.le_refl _) hsu.2.2.2
    · intro c b hcb
      exact blocks_shape_generic sentD (by simp) b (Or.inr (Or.inr (Or.inr (escMap3_blocks c b hcb))))
    · intro c b hne hcb
      simp only [escMap3, escMap2, escMap1, escMap] at hcb
      split_ifs at hcb
      all_goals first
        | exact Option.noConfusion hcb
        | exact absurd (by assumption) hne
        | (injection hcb with h5; subst h5; decide)
  rw [p4]
  have hz : ∀ c, escMap4 c = Option.none := by
    intro c
    simp only [escMap4, escMap3, escMap2, escMap1, escMap]
    split_ifs <;> rfl
  unfold expandM
  rw [cmap_congr _ (fun c => [c]) (fun c => by rw [hz c]; rfl)]
  exact cmap_id s

/-- Claim C4 (counterexample): the sentinel text can occur in a payload
and then collides — a payload that is literally the CR sentinel decodes
(after the identity encoding) to a carriage return, so the round trip
fails on it. -/
theorem thmC4_counterexample :
    decodeValue (encodeValue "</0x0A;>".toList) = "\r".toList ∧
    "</0x0A;>".toList ≠ "\r".toList := by
  constructor
  · decide
  · decide

/-- Claim C4 (amended): for every string containing none of the four
sentinel substrings, decoding recovers the encoded string. -/
theorem thmC4_escape_roundtrip (s : List Char) (h : sentinelFreeB s = true) :
    decodeValue (encodeValue s) = s :=
  escape_roundtrip_of_sentinelFree s h

/-- Witness for the amended C4 theorem on a string using all four
escaped characters. -/
theorem thmC4_witness :
    sentinelFreeB "a b\tc\nd\re".toList = true ∧
    decodeValue (encodeValue "a b\tc\nd\re".toList) = "a b\tc\nd\re".toList :=
  ⟨by decide, thmC4_escape_roundtrip "a b\tc\nd\re".toList (by decide)⟩

/-! ## Claim C2: the hierarchy cursor -/

/-- Claim C2 (counterexample): on the entry stream
`[a,e,1];[b,e,1];[c,f,x];[d,f,y]` the source loop and the claimed
check-after-every-append-with-cascade semantics disagree: the code
checks only after the non-CONTAINER appends and ascends a single level,
so `d` is appended inside `a` (whose count is already exceeded), while
under the claimed cascade `a` would have closed after `c` and `d` would
be a new top-level value. -/
theorem thmC2_counterexample :
    buildValues []
        [("a".toList, "e".toList, "1".toList), ("b".toList, "e".toList, "1".toList),
         ("c".toList, "f".toList, "x".toList), ("d".toList, "f".toList, "y".toList)] ≠
      specBuildValues []
        [("a".toList, "e".toList, "1".toList), ("b".toList, "e".toList, "1".toList),
         ("c".toList, "f".toList, "x".toList), ("d".toList, "f".toList, "y".toList)] := by
  decide

/-- Claim C2 (amended): the reconstruction loop compares the stored
count only after appending a non-CONTAINER entry and then ascends
exactly one level; an appended CONTAINER becomes the cursor with no
check; there is no cascading.  The source loop equals this amended
cursor semantics step by step. -/
theorem thmC2_amended_cursor (done0 : List VTree)
    (es : List (List Char × List Char × List Char)) :
    buildValues done0 es = flushStack (es.foldl amendedStep (done0, [])) := by
  have hstep : buildStep = amendedStep := by
    funext st e
    unfold buildStep amendedStep closeCheck
    rfl
  unfold buildValues
  rw [hstep]

/-! ## Claim C3: serialized CONTAINER counts are not recomputed -/

/-- Claim C3 (counterexample): a CONTAINER whose stored raw `"2"` went
stale (it has one child) is serialized with payload `2`, not with the
decimal child count `1` — `Value.serialize` emits the stored
`value_string` unchanged. -/
theorem thmC3_counterexample :
    (findEntriesD (valueSerialize
        (.node "c".toList "e".toList "2".toList
          [.node "x".toList "f".toList "v".toList []]))).head? =
      some ("c".toList, "e".toList, "2".toList) ∧
    natToChars (vchildren
        (VTree.node "c".toList "e".toList "2".toList
          [.node "x".toList "f".toList "v".toList []])).length = "1".toList ∧
    ("2".toList : List Char) ≠ "1".toList := by
  refine ⟨by decide, by decide, by decide⟩

/-- Claim C3 (amended): the entry `serialize()` emits for a value
carries the stored payload, encoded, and is unchanged by mutating the
children — no count is recomputed at serialization time. -/
theorem thmC3_serialize_emits_stored :
    (∀ v : VTree, valueSerialize v =
        entryText (vname v) (vts v) (encodeValue (vvs v)) ++ serializeF (vchildren v)) ∧
    (∀ v c : VTree, entryText (vname (vappend v c)) (vts (vappend v c))
        (encodeValue (vvs (vappend v c))) =
      entryText (vname v) (vts v) (encodeValue (vvs v))) := by
  constructor
  · intro v
    cases v
    rfl
  · intro v c
    cases v
    rfl

/-! ## Claims C7 and C10: typed reads and the NULL placeholder -/

theorem effValues_of_deserialized (c : ContainerM) (h : c.deserialized = true) :
    effValues c = c.values := by
  simp [effValues, h]

theorem containerGet_eq_nil (c : ContainerM) (n : List Char) (h : n ≠ [])
    (hm : (effValues c).filter (fun v => vname v = n) = []) :
    containerGet c n = [nullPlaceholder n] := by
  unfold containerGet
  rw [if_neg h, hm]

theorem containerGet_eq_filter (c : ContainerM) (n : List Char) (h : n ≠ [])
    (v : VTree) (r : List VTree)
    (hm : (effValues c).filter (fun v => vname v = n) = v :: r) :
    containerGet c n = v :: r := by
  unfold containerGet
  rw [if_neg h, hm]

/-- Claim C10: for a non-empty name, `Container.get` never returns an
empty list — when no top-level value matches it returns exactly one
fresh NULL-kind value with that name and empty payload.  (This is why
the client's confirm handler can never observe the absent case, and why
`get_value` falls back to its default through the placeholder.) -/
theorem thmC10_get_placeholder (c : ContainerM) (n : List Char) (h : n ≠ []) :
    containerGet c n ≠ [] ∧
    ((effValues c).filter (fun v => vname v = n) = [] →
      containerGet c n = [nullPlaceholder n]) := by
  constructor
  · cases hm : (effValues c).filter (fun v => vname v = n) with
    | nil => rw [containerGet_eq_nil c n h hm]; simp
    | cons v r => rw [containerGet_eq_filter c n h v r hm]; simp
  · intro hm
    exact containerGet_eq_nil c n h hm

/-- Witness for C10 on an empty container. -/
theorem thmC10_witness :
    containerGet containerInit "k".toList = [nullPlaceholder "k".toList] :=
  (thmC10_get_placeholder containerInit "k".toList (by decide)).2 (by decide)

/-- Claim C7 (counterexample): a stored NULL-kind value named `x` makes
`get_value("x", default)` return the default, not Python `None` — the
claimed "NULL yielding none" conversion is unreachable through
`Container.get_value`. -/
theorem thmC7_counterexample :
    containerGetValue
        (containerCreate [] [] [] [] "m".toList [.node "x".toList "0".toList [] []])
        "x".toList (PyVal.pstr "d".toList) = PyVal.pstr "d".toList ∧
    PyVal.pstr "d".toList ≠ PyVal.pnone := by
  exact ⟨by decide, by decide⟩

/-- Claim C7 (amended): for a deserialized container and non-empty
name, `get_value` equals the claimed conversion table with the NULL row
amended: a NULL-kind first match yields the default (as does an absent
name); BOOL compares the lower-cased raw with true; integer kinds parse
via `int` and float kinds via `float`, a parse failure yielding the
default; all other kinds yield the raw string. -/
theorem thmC7_getValue_spec (c : ContainerM) (n : List Char) (d : PyVal)
    (hdes : c.deserialized = true) (hn : n ≠ []) :
    containerGetValue c n d = specGetValue c n d := by
  have heff := effValues_of_deserialized c hdes
  cases hm : c.values.filter (fun v => vname v = n) with
  | nil =>
    have hg : containerGet c n = [nullPlaceholder n] :=
      containerGet_eq_nil c n hn (by rw [heff]; exact hm)
    unfold containerGetValue specGetValue
    rw [hg, hm]
    simp [nullPlaceholder, vts, typeOf]
  | cons v r =>
    have hg : containerGet c n = v :: r :=
      containerGet_eq_filter c n hn v r (by rw [heff]; exact hm)
    unfold containerGetValue specGetValue
    rw [hg, hm]
    by_cases hk : typeOf (vts v) = VKind.nullK
    · simp [hk]
    · simp only [ne_eq, hk, not_false_eq_true, if_true, if_neg hk]
      unfold valueGetValue
      rcases hkk : typeOf (vts v) <;>
        simp [hkk, VKind.isNumericK, VKind.isFloatK] at hk ⊢

/-- Witness for the amended C7 theorem on a BOOL value. -/
theorem thmC7_witness :
    containerGetValue
        (containerCreate [] [] [] [] "m".toList [.node "b".toList "1".toList "true".toList []])
        "b".toList PyVal.pnone =
      specGetValue
        (containerCreate [] [] [] [] "m".toList [.node "b".toList "1".toList "true".toList []])
        "b".toList PyVal.pnone :=
  thmC7_getValue_spec _ _ _ rfl (by decide)

/-! ## Claim C1: round trip.  Decimal rendering -/

theorem natToCharsGo_fuel_irrel : ∀ f1 f2 n : Nat, n < f1 → n < f2 →
    natToCharsGo f1 n = natToCharsGo f2 n := by
  intro f1
  induction f1 with
  | zero => intro f2 n h1 _; omega
  | succ g1 ih =>
    intro f2 n h1 h2
    obtain ⟨g2, rfl⟩ : ∃ g2, f2 = g2 + 1 := ⟨f2 - 1, by omega⟩
    by_cases hn : n < 10
    · simp [natToCharsGo, hn]
    · have hdiv : n / 10 < n := Nat.div_lt_self (by omega) (by omega)
      simp only [natToCharsGo, hn, if_false]
      rw [ih g2 (n / 10) (by omega) (by omega)]

theorem digitChar_inj_aux : ∀ a < 10, ∀ b < 10, digitChar a = digitChar b → a = b := by
  decide

theorem digitChar_inj_lt (a b : Nat) (ha : a < 10) (hb : b < 10)
    (h : digitChar a = digitChar b) : a = b :=
  digitChar_inj_aux a ha b hb h

theorem natToChars_ge10 (n : Nat) (h : ¬ n < 10) :
    natToChars n = natToChars (n / 10) ++ [digitChar (n % 10)] := by
  have hdiv : n / 10 < n := Nat.div_lt_self (by omega) (by omega)
  unfold natToChars
  conv =>
    lhs
    rw [natToCharsGo]
  rw [if_neg h]
  rw [natToCharsGo_fuel_irrel n (n / 10 + 1) (n / 10) (by omega) (by omega)]

theorem natToChars_lt10 (n : Nat) (h : n < 10) : natToChars n = [digitChar n] := by
  unfold natToChars natToCharsGo
  rw [if_pos h]

theorem natToChars_ne_nil (n : Nat) : natToChars n ≠ [] := by
  by_cases hn : n < 10
  · rw [natToChars_lt10 n hn]
    simp
  · rw [natToChars_ge10 n hn]
    simp

theorem natToChars_inj : ∀ a b : Nat, natToChars a = natToChars b → a = b := by
  intro a
  induction a using Nat.strong_induction_on with
  | _ a ih =>
    intro b h
    by_cases ha : a < 10
    · by_cases hb : b < 10
      · rw [natToChars_lt10 a ha, natToChars_lt10 b hb] at h
        injection h with h1
        exact digitChar_inj_lt a b ha hb h1
      · rw [natToChars_lt10 a ha, natToChars_ge10 b hb] at h
        rcases hnil : natToChars (b / 10) with _ | ⟨hd, tl⟩
        · exact absurd hnil (natToChars_ne_nil _)
        · rw [hnil] at h
          simp at h
    · by_cases hb : b < 10
      · rw [natToChars_ge10 a ha, natToChars_lt10 b hb] at h
        rcases hnil : natToChars (a / 10) with _ | ⟨hd, tl⟩
        · exact absurd hnil (natToChars_ne_nil _)
        · rw [hnil] at h
          simp at h
      · rw [natToChars_ge10 a ha, natToChars_ge10 b hb] at h
        have hrev := congrArg List.reverse h
        simp only [List.reverse_append, List.reverse_singleton, List.singleton_append] at hrev
        injection hrev with h1 h2
        have hquot : a / 10 = b / 10 := by
          apply ih (a / 10) (Nat.div_lt_self (by omega) (by omega))
          have := congrArg List.reverse h2
          simpa using this
        have hmod : a % 10 = b % 10 :=
          digitChar_inj_lt _ _ (Nat.mod_lt _ (by omega)) (Nat.mod_lt _ (by omega)) h1
        omega

/-! ## Claim C1: round trip.  The hierarchy rebuild on well-formed forests -/

theorem flushStack_cons₂ (done : List VTree) (g f : BFrame) (st : List BFrame) :
    flushStack (done, g :: f :: st) = flushStack (done, addChild f (closeFrame g) :: st) := rfl

theorem flushStack_ascend1 (done : List VTree) (f : BFrame) (st : List BFrame) :
    flushStack (ascend1 done f st) = flushStack (done, f :: st) := by
  cases st with
  | nil => rfl
  | cons g r => rfl

theorem flushStack_closeCheck (done : List VTree) (f : BFrame) (st : List BFrame) :
    flushStack (closeCheck done f st) = flushStack (done, f :: st) := by
  unfold closeCheck
  split_ifs with h
  · exact flushStack_ascend1 done f st
  · rfl

theorem wfV_leaf_dest {n t v : List Char} {ch : List VTree} {fin : Bool}
    (hk : typeOf t ≠ .containerK) (h : wfV (.node n t v ch) fin = true) :
    typeOf t ≠ .nullK ∧ ch = [] := by
  simp only [wfV, if_neg hk, Bool.and_eq_true, Bool.not_eq_true'] at h
  obtain ⟨-, h2, h3⟩ := h
  constructor
  · intro hnull
    rw [hnull] at h2
    simp at h2
  · cases ch with
    | nil => rfl
    | cons x r => simp [isNilF] at h3

theorem wfV_container_dest {n t v : List Char} {ch : List VTree} {fin : Bool}
    (hk : typeOf t = .containerK) (h : wfV (.node n t v ch) fin = true) :
    v = natToChars ch.length ∧ wfF ch fin = true ∧
      (fin = false → ch ≠ [] ∧ lastNonContainer ch = true) := by
  simp only [wfV, if_pos hk, Bool.and_eq_true, decide_eq_true_eq] at h
  obtain ⟨-, ⟨hv, hwf⟩, hfin⟩ := h
  refine ⟨hv, hwf, ?_⟩
  intro hf
  rw [hf] at hfin
  simp only [Bool.false_or, Bool.and_eq_true, Bool.not_eq_true'] at hfin
  obtain ⟨h1, h2⟩ := hfin
  constructor
  · intro hnil
    rw [hnil] at h1
    simp [isNilF] at h1
  · exact h2

theorem wfF_dest_cons₂ {x y : VTree} {r : List VTree} {fin : Bool}
    (h : wfF (x :: y :: r) fin = true) :
    wfV x false = true ∧ wfF (y :: r) fin = true := by
  simp only [wfF, Bool.and_eq_true] at h
  exact h

theorem flattenF_cons (v : VTree) (r : List VTree) :
    flattenF (v :: r) = flattenV v ++ flattenF r := by
  cases r <;> rfl

mutual
theorem build_tree_nonfin : ∀ (v : VTree), wfV v false = true →
    ∀ (done : List VTree) (f : BFrame) (st : List BFrame),
    (flattenV v).foldl buildStep (done, f :: st) =
      (if typeOf (vts v) = .containerK then ((done, addChild f v :: st) : BState)
       else closeCheck done (addChild f v) st)
  | .node n t v0 ch => by
    intro hwf done f st
    by_cases hk : typeOf t = .containerK
    · obtain ⟨hcount, hwfch, hfin⟩ := wfV_container_dest hk hwf
      obtain ⟨hne, hlast⟩ := hfin rfl
      have hstep : buildStep (done, f :: st) (n, t, v0) =
          (done, (⟨n, t, v0, []⟩ : BFrame) :: f :: st) := by
        have hnn : typeOf t ≠ .nullK := by rw [hk]; intro hh; cases hh
        simp [buildStep, hk, hnn]
      rw [show flattenV (.node n t v0 ch) = (n, t, v0) :: flattenF ch from rfl]
      rw [List.foldl_cons, hstep]
      rw [build_forest_nonfin ch hwfch hne hlast done ⟨n, t, v0, []⟩ (f :: st)
        (by simpa using hcount)]
      simp only [vts, if_pos hk]
      rfl
    · obtain ⟨hnn, rfl⟩ := wfV_leaf_dest hk hwf
      have hstep : buildStep (done, f :: st) (n, t, v0) =
          closeCheck done (addChild f (.node n t v0 [])) st := by
        simp [buildStep, hk, hnn]
      rw [show flattenV (.node n t v0 []) = [(n, t, v0)] from rfl]
      rw [List.foldl_cons, List.foldl_nil, hstep]
      simp only [vts, if_neg hk]
theorem build_forest_nonfin : ∀ (l : List VTree), wfF l false = true → l ≠ [] →
    lastNonContainer l = true →
    ∀ (done : List VTree) (f : BFrame) (st : List BFrame),
    f.vs = natToChars (f.children.length + l.length) →
    (flattenF l).foldl buildStep (done, f :: st) = ascend1 done (appendChildren f l) st
  | [] => by intro _ hne _; exact absurd rfl hne
  | [x] => by
    intro hwf _ hlast done f st hvs
    have hwfx : wfV x false = true := hwf
    have hkx : typeOf (vts x) ≠ .containerK := by
      simp only [lastNonContainer, Bool.not_eq_true'] at hlast
      intro hh
      rw [hh] at hlast
      cases hlast
    rw [flattenF_cons, List.foldl_append]
    rw [show flattenF ([] : List VTree) = [] from rfl, List.foldl_nil]
    rw [build_tree_nonfin x hwfx done f st, if_neg hkx]
    unfold closeCheck
    rw [if_pos]
    · rfl
    · show natToChars (addChild f x).children.length = (addChild f x).vs
      simp only [addChild, List.length_append, List.length_singleton]
      rw [hvs]
      rfl
  | x :: y :: r => by
    intro hwf _ hlast done f st hvs
    obtain ⟨hwfx, hwfr⟩ := wfF_dest_cons₂ hwf
    have hlast2 : lastNonContainer (y :: r) = true := hlast
    rw [flattenF_cons, List.foldl_append]
    rw [build_tree_nonfin x hwfx done f st]
    by_cases hkx : typeOf (vts x) = .containerK
    · rw [if_pos hkx]
      rw [build_forest_nonfin (y :: r) hwfr (by simp) hlast2 done (addChild f x) st
        (by simp only [addChild, List.length_append, List.length_singleton, List.length_cons,
              List.length_nil]
            rw [hvs]
            congr 1
            simp only [List.length_cons]
            omega)]
      unfold appendChildren addChild
      simp
    · rw [if_neg hkx]
      unfold closeCheck
      rw [if_neg]
      · rw [build_forest_nonfin (y :: r) hwfr (by simp) hlast2 done (addChild f x) st
          (by simp only [addChild, List.length_append, List.length_singleton, List.length_cons,
                List.length_nil]
              rw [hvs]
              congr 1
              simp only [List.length_cons]
              omega)]
        unfold appendChildren addChild
        simp
      · show ¬ natToChars (addChild f x).children.length = (addChild f x).vs
        simp only [addChild, List.length_append, List.length_singleton]
        rw [hvs]
        intro hh
        have := natToChars_inj _ _ hh
        simp only [List.length_cons] at this
        omega
end

theorem appendChildren_nil (f : BFrame) : appendChildren f [] = f := by
  cases f
  simp [appendChildren]

theorem wfF_dest_single {x : VTree} {fin : Bool} (h : wfF [x] fin = true) :
    wfV x fin = true := h

mutual
theorem build_tree_fin : ∀ (v : VTree), wfV v true = true →
    ∀ (done : List VTree) (f : BFrame) (st : List BFrame),
    flushStack ((flattenV v).foldl buildStep (done, f :: st)) =
      flushStack (done, addChild f v :: st)
  | .node n t v0 ch => by
    intro hwf done f st
    by_cases hk : typeOf t = .containerK
    · obtain ⟨hcount, hwfch, -⟩ := wfV_container_dest hk hwf
      have hstep : buildStep (done, f :: st) (n, t, v0) =
          (done, (⟨n, t, v0, []⟩ : BFrame) :: f :: st) := by
        have hnn : typeOf t ≠ .nullK := by rw [hk]; intro hh; cases hh
        simp [buildStep, hk, hnn]
      rw [show flattenV (.node n t v0 ch) = (n, t, v0) :: flattenF ch from rfl]
      rw [List.foldl_cons, hstep]
      rw [build_forest_fin ch hwfch done ⟨n, t, v0, []⟩ (f :: st) (by simpa using hcount)]
      rw [flushStack_cons₂]
      rfl
    · obtain ⟨hnn, rfl⟩ := wfV_leaf_dest hk hwf
      have hstep : buildStep (done, f :: st) (n, t, v0) =
          closeCheck done (addChild f (.node n t v0 [])) st := by
        simp [buildStep, hk, hnn]
      rw [show flattenV (.node n t v0 []) = [(n, t, v0)] from rfl]
      rw [List.foldl_cons, List.foldl_nil, hstep]
      exact flushStack_closeCheck done _ st
theorem build_forest_fin : ∀ (l : List VTree), wfF l true = true →
    ∀ (done : List VTree) (f : BFrame) (st : List BFrame),
    f.vs = natToChars (f.children.length + l.length) →
    flushStack ((flattenF l).foldl buildStep (done, f :: st)) =
      flushStack (done, appendChildren f l :: st)
  | [] => by
    intro _ done f st _
    rw [show flattenF ([] : List VTree) = [] from rfl, List.foldl_nil, appendChildren_nil]
  | [x] => by
    intro hwf done f st hvs
    have hwfx : wfV x true = true := wfF_dest_single hwf
    rw [flattenF_cons, List.foldl_append]
    rw [show flattenF ([] : List VTree) = [] from rfl, List.foldl_nil]
    rw [build_tree_fin x hwfx done f st]
    have : appendChildren f [x] = addChild f x := by
      cases f
      simp [appendChildren, addChild]
    rw [this]
  | x :: y :: r => by
    intro hwf done f st hvs
    obtain ⟨hwfx, hwfr⟩ := wfF_dest_cons₂ hwf
    rw [flattenF_cons, List.foldl_append]
    rw [build_tree_nonfin x hwfx done f st]
    by_cases hkx : typeOf (vts x) = .containerK
    · rw [if_pos hkx]
      rw [build_forest_fin (y :: r) hwfr done (addChild f x) st
        (by simp only [addChild, List.length_append, List.length_singleton, List.length_cons,
              List.length_nil]
            rw [hvs]
            congr 1
            simp only [List.length_cons]
            omega)]
      have : appendChildren (addChild f x) (y :: r) = appendChildren f (x :: y :: r) := by
        cases f
        simp [appendChildren, addChild]
      rw [this]
    · rw [if_neg hkx]
      unfold closeCheck
      rw [if_neg]
      · rw [build_forest_fin (y :: r) hwfr done (addChild f x) st
          (by simp only [addChild, List.length_append, List.length_singleton, List.length_cons,
                List.length_nil]
              rw [hvs]
              congr 1
              simp only [List.length_cons]
              omega)]
        have : appendChildren (addChild f x) (y :: r) = appendChildren f (x :: y :: r) := by
          cases f
          simp [appendChildren, addChild]
        rw [this]
      · show ¬ natToChars (addChild f x).children.length = (addChild f x).vs
        simp only [addChild, List.length_append, List.length_singleton]
        rw [hvs]
        intro hh
        have := natToChars_inj _ _ hh
        simp only [List.length_cons] at this
        omega
end

theorem build_top_nonfin (v : VTree) (hwf : wfV v false = true) (done : List VTree) :
    (flattenV v).foldl buildStep (done, []) = (done ++ [v], []) := by
  cases v with
  | node n t v0 ch =>
    by_cases hk : typeOf t = .containerK
    · obtain ⟨hcount, hwfch, hfin⟩ := wfV_container_dest hk hwf
      obtain ⟨hne, hlast⟩ := hfin rfl
      have hstep : buildStep (done, []) (n, t, v0) =
          (done, [(⟨n, t, v0, []⟩ : BFrame)]) := by
        have hnn : typeOf t ≠ .nullK := by rw [hk]; intro hh; cases hh
        simp [buildStep, hk, hnn]
      rw [show flattenV (.node n t v0 ch) = (n, t, v0) :: flattenF ch from rfl]
      rw [List.foldl_cons, hstep]
      rw [build_forest_nonfin ch hwfch hne hlast done ⟨n, t, v0, []⟩ []
        (by simpa using hcount)]
      rfl
    · obtain ⟨hnn, rfl⟩ := wfV_leaf_dest hk hwf
      rw [show flattenV (.node n t v0 []) = [(n, t, v0)] from rfl]
      rw [List.foldl_cons, List.foldl_nil]
      simp [buildStep, hk, hnn]

theorem build_top_fin (v : VTree) (hwf : wfV v true = true) (done : List VTree) :
    flushStack ((flattenV v).foldl buildStep (done, [])) = done ++ [v] := by
  cases v with
  | node n t v0 ch =>
    by_cases hk : typeOf t = .containerK
    · obtain ⟨hcount, hwfch, -⟩ := wfV_container_dest hk hwf
      have hstep : buildStep (done, []) (n, t, v0) =
          (done, [(⟨n, t, v0, []⟩ : BFrame)]) := by
        have hnn : typeOf t ≠ .nullK := by rw [hk]; intro hh; cases hh
        simp [buildStep, hk, hnn]
      rw [show flattenV (.node n t v0 ch) = (n, t, v0) :: flattenF ch from rfl]
      rw [List.foldl_cons, hstep]
      rw [build_forest_fin ch hwfch done ⟨n, t, v0, []⟩ [] (by simpa using hcount)]
      rfl
    · obtain ⟨hnn, rfl⟩ := wfV_leaf_dest hk hwf
      rw [show flattenV (.node n t v0 []) = [(n, t, v0)] from rfl]
      rw [List.foldl_cons, List.foldl_nil]
      simp [buildStep, hk, hnn, flushStack]

theorem build_forest_top : ∀ (l : List VTree), wfF l true = true → ∀ done : List VTree,
    flushStack ((flattenF l).foldl buildStep (done, [])) = done ++ l
  | [] => by
    intro _ done
    simp [flattenF, flushStack]
  | [x] => by
    intro hwf done
    rw [flattenF_cons, List.foldl_append]
    rw [show flattenF ([] : List VTree) = [] from rfl, List.foldl_nil]
    exact build_top_fin x (wfF_dest_single hwf) done
  | x :: y :: r => by
    intro hwf done
    obtain ⟨hwfx, hwfr⟩ := wfF_dest_cons₂ hwf
    rw [flattenF_cons, List.foldl_append]
    rw [build_top_nonfin x hwfx done]
    rw [build_forest_top (y :: r) hwfr (done ++ [x])]
    simp

/-! ## Claim C1: round trip.  Text-level helper lemmas -/

theorem stripCRLF_append (x y : List Char) :
    stripCRLF (x ++ y) = stripCRLF x ++ stripCRLF y := by
  simp [stripCRLF, List.filter_append]

theorem stripCRLF_id_of {s : List Char} (h : ∀ c ∈ s, c ≠ '\r' ∧ c ≠ '\n') :
    stripCRLF s = s := by
  induction s with
  | nil => rfl
  | cons c r ih =>
    have hc := h c (by simp)
    simp only [stripCRLF, List.filter_cons]
    rw [if_pos (by simp [hc.1, hc.2])]
    rw [show List.filter (fun c => !(c = '\r' || c = '\n')) r = stripCRLF r from rfl]
    rw [ih (fun d hd => h d (by simp [hd]))]

theorem word_char_props {c : Char} (hc : isWordChar c = true) :
    c ≠ '\r' ∧ c ≠ '\n' ∧ c ≠ ',' ∧ c ≠ ']' ∧ c ≠ ';' ∧ c ≠ '\x7d' ∧ c ≠ '@' ∧
      c ≠ '[' ∧ c ≠ '\x7b' := by
  refine ⟨?_, ?_, ?_, ?_, ?_, ?_, ?_, ?_, ?_⟩ <;>
    (intro hh; rw [hh] at hc; exact absurd hc (by decide))

theorem all_word_props {s : List Char} (hs : s.all isWordChar = true) :
    ∀ c ∈ s, isWordChar c = true := by
  intro c hc
  exact List.all_eq_true.mp hs c hc

theorem stripCRLF_word {s : List Char} (hs : s.all isWordChar = true) :
    stripCRLF s = s :=
  stripCRLF_id_of (fun c hc => ⟨(word_char_props (all_word_props hs c hc)).1,
    (word_char_props (all_word_props hs c hc)).2.1⟩)

theorem escMap_none_props {c : Char} (h : escMap c = Option.none) :
    c ≠ '\r' ∧ c ≠ '\n' ∧ c ≠ ' ' ∧ c ≠ '\t' := by
  refine ⟨?_, ?_, ?_, ?_⟩ <;> (intro hh; rw [hh] at h; simp [escMap] at h)

theorem stripCRLF_encode (s : List Char) : stripCRLF (encodeValue s) = encodeValue s := by
  rw [encodeValue_expand]
  induction s with
  | nil => rfl
  | cons c t ih =>
    rw [expandM_cons, stripCRLF_append, ih]
    cases hmc : escMap c with
    | none =>
      have hp := escMap_none_props hmc
      simp only [Option.getD_none]
      rw [stripCRLF_id_of (by intro d hd; simp at hd; subst hd; exact ⟨hp.1, hp.2.1⟩)]
    | some b =>
      rcases escMap_blocks c b hmc with rfl | rfl | rfl | rfl <;>
        simp only [Option.getD_some] <;> rw [stripCRLF_id_of (by decide)]

theorem headerValOk_mem {h : List Char} (hh : headerValOkB h = true) :
    ∀ c ∈ h, c ≠ '@' ∧ c ≠ '\x7d' ∧ c ≠ ']' ∧ c ≠ '\r' ∧ c ≠ '\n' := by
  intro c hc
  have := List.all_eq_true.mp hh c hc
  simp only [Bool.not_eq_true', Bool.or_eq_false_iff, decide_eq_false_iff_not] at this
  tauto

theorem stripCRLF_headerVal {h : List Char} (hh : headerValOkB h = true) :
    stripCRLF h = h :=
  stripCRLF_id_of (fun c hc => ⟨(headerValOk_mem hh c hc).2.2.2.1,
    (headerValOk_mem hh c hc).2.2.2.2⟩)

theorem lastChar_cons {w : List Char} (c : Char) (hw : w ≠ []) :
    lastChar (c :: w) = lastChar w := by
  cases w with
  | nil => exact absurd rfl hw
  | cons d r => rfl

theorem lastChar_append_right (x : List Char) {y : List Char} (hy : y ≠ []) :
    lastChar (x ++ y) = lastChar y := by
  induction x with
  | nil => rfl
  | cons c r ih =>
    rw [List.cons_append, lastChar_cons c (by simp [hy]), ih]

theorem lastChar_mem : ∀ {s : List Char} {a : Char}, lastChar s = some a → a ∈ s := by
  intro s
  induction s with
  | nil => intro a h; cases h
  | cons c r ih =>
    intro a h
    cases r with
    | nil =>
      simp only [lastChar, Option.some.injEq] at h
      simp [h]
    | cons d r2 =>
      rw [lastChar_cons c (by simp)] at h
      simp [ih h]

theorem hasSub_pair_cons_ne {a b c : Char} (s : List Char) (hc : c ≠ a) :
    hasSub [a, b] (c :: s) = hasSub [a, b] s := by
  rw [hasSub_cons]
  have : isPre [a, b] (c :: s) = false := by
    simp only [isPre]
    rw [decide_eq_false (fun hh => hc hh.symm)]
    simp
  rw [this]
  simp

theorem hasSub_pair_not_mem {a b : Char} {s : List Char} (h : ∀ c ∈ s, c ≠ a) :
    hasSub [a, b] s = false := by
  induction s with
  | nil => rfl
  | cons c r ih =>
    rw [hasSub_pair_cons_ne r (h c (by simp))]
    exact ih (fun d hd => h d (by simp [hd]))

theorem isPre_pair_head {a b c : Char} {s : List Char} :
    isPre [a, b] (c :: s) = true ↔ c = a ∧ s.head? = some b := by
  cases s with
  | nil => simp [isPre]
  | cons d r =>
    simp only [isPre, Bool.and_eq_true, decide_eq_true_eq, List.head?_cons,
      Option.some.injEq]
    constructor
    · rintro ⟨h1, h2, -⟩
      exact ⟨h1.symm, h2.symm⟩
    · rintro ⟨h1, h2⟩
      exact ⟨h1.symm, h2.symm, trivial⟩

theorem hasSub_pair_append {a b : Char} {x y : List Char}
    (hx : hasSub [a, b] x = false) (hy : hasSub [a, b] y = false)
    (hbd : ¬(lastChar x = some a ∧ y.head? = some b)) :
    hasSub [a, b] (x ++ y) = false := by
  induction x with
  | nil => exact hy
  | cons c x2 ih =>
    rw [List.cons_append, hasSub_cons]
    have htail : hasSub [a, b] (x2 ++ y) = false := by
      apply ih (hasSub_of_tail hx)
      cases x2 with
      | nil => simp [lastChar]
      | cons d r =>
        intro hcontra
        apply hbd
        refine ⟨?_, hcontra.2⟩
        rw [lastChar_cons c (by simp)]
        exact hcontra.1
    rw [htail]
    have hpre : isPre [a, b] (c :: (x2 ++ y)) = false := by
      cases hip : isPre [a, b] (c :: (x2 ++ y)) with
      | false => rfl
      | true =>
        exfalso
        obtain ⟨rfl, hhd⟩ := isPre_pair_head.mp hip
        cases hx2 : x2 with
        | nil =>
          rw [hx2] at hhd
          simp only [List.nil_append] at hhd
          exact hbd ⟨by simp [hx2, lastChar], hhd⟩
        | cons d r =>
          rw [hx2] at hhd
          simp only [List.cons_append, List.head?_cons, Option.some.injEq] at hhd
          have : isPre [c, b] (c :: x2) = true := by
            rw [hx2]
            exact isPre_pair_head.mpr ⟨rfl, by simp [hhd]⟩
          rw [hasSub_cons, this] at hx
          simp at hx
    rw [hpre]
    simp

/-! ## Claim C1: scanner lemmas -/

theorem headerTag_chars : "@header=".toList = ['@', 'h', 'e', 'a', 'd', 'e', 'r', '='] := rfl

theorem dataTag_chars : "@data=".toList = ['@', 'd', 'a', 't', 'a', '='] := rfl

theorem upToClose_step {c : Char} {s : List Char} (hs : s ≠ [])
    (h : ¬(c = '\x7d' ∧ s.head? = some ';')) :
    upToClose (c :: s) = (upToClose s).map (fun t => c :: t) := by
  cases s with
  | nil => exact absurd rfl hs
  | cons d r =>
    by_cases hc : c = '\x7d'
    · have hd : ¬ d = ';' := fun hh => h ⟨hc, by simp [hh]⟩
      simp only [upToClose, if_pos hc, if_neg hd]
    · simp only [upToClose, if_neg hc]

theorem upToClose_clean : ∀ (i : List Char), hasSub cbrk i = false → ∀ (t : List Char),
    upToClose (i ++ '\x7d' :: ';' :: t) = some (i ++ ['\x7d', ';'])
  | [], _, t => by simp [upToClose]
  | c :: i2, hi, t => by
    have hcond : ¬(c = '\x7d' ∧ (i2 ++ '\x7d' :: ';' :: t).head? = some ';') := by
      rintro ⟨hc, hh⟩
      cases i2 with
      | nil =>
        simp only [List.nil_append, List.head?_cons, Option.some.injEq] at hh
        exact absurd hh (by decide)
      | cons d r =>
        simp only [List.cons_append, List.head?_cons, Option.some.injEq] at hh
        have : isPre cbrk (c :: d :: r) = true := by
          simp [cbrk, isPre, hc, hh]
        rw [hasSub_cons, this] at hi
        simp at hi
    rw [List.cons_append, upToClose_step (by simp) hcond,
      upToClose_clean i2 (hasSub_of_tail hi) t]
    rfl

theorem splitAtEnd_step {c : Char} {s : List Char} (hs : s ≠ [])
    (h : ¬(c = ']' ∧ s.head? = some ';')) :
    splitAtEnd (c :: s) = (splitAtEnd s).map (fun p => (c :: p.1, p.2)) := by
  cases s with
  | nil => exact absurd rfl hs
  | cons d r =>
    by_cases hc : c = ']'
    · have hd : ¬ d = ';' := fun hh => h ⟨hc, by simp [hh]⟩
      simp only [splitAtEnd, if_pos hc, if_neg hd]
    · simp only [splitAtEnd, if_neg hc]

theorem splitAtEnd_clean : ∀ (i : List Char), hasSub ebrk i = false → ∀ (t : List Char),
    splitAtEnd (i ++ ']' :: ';' :: t) = some (i, t)
  | [], _, t => by simp [splitAtEnd]
  | c :: i2, hi, t => by
    have hcond : ¬(c = ']' ∧ (i2 ++ ']' :: ';' :: t).head? = some ';') := by
      rintro ⟨hc, hh⟩
      cases i2 with
      | nil =>
        simp only [List.nil_append, List.head?_cons, Option.some.injEq] at hh
        exact absurd hh (by decide)
      | cons d r =>
        simp only [List.cons_append, List.head?_cons, Option.some.injEq] at hh
        have : isPre ebrk (c :: d :: r) = true := by
          simp [ebrk, isPre, hc, hh]
        rw [hasSub_cons, this] at hi
        simp at hi
    rw [List.cons_append, splitAtEnd_step (by simp) hcond,
      splitAtEnd_clean i2 (hasSub_of_tail hi) t]
    rfl

theorem isPre_refl_append : ∀ (p s : List Char), isPre p (p ++ s) = true
  | [], _ => rfl
  | a :: as, s => by simp [isPre, isPre_refl_append as s]

theorem takeWhile_append_all {p : Char → Bool} :
    ∀ (x : List Char), (∀ c ∈ x, p c = true) →
    ∀ (y : List Char), (∀ d, y.head? = some d → p d = false) →
    (x ++ y).takeWhile p = x
  | [], _, y, hy => by
    cases y with
    | nil => rfl
    | cons d r =>
      simp only [List.nil_append]
      rw [List.takeWhile_cons_of_neg (by simp [hy d rfl])]
  | c :: x2, hx, y, hy => by
    rw [List.cons_append, List.takeWhile_cons_of_pos (by simp [hx c (by simp)])]
    rw [takeWhile_append_all x2 (fun d hd => hx d (by simp [hd])) y hy]

theorem word_not_class {c : Char} (hc : isWordChar c = true) : isClassChar c = false := by
  cases hclass : isClassChar c with
  | false => rfl
  | true =>
    exfalso
    simp only [isClassChar, isSpaceChar, Bool.or_eq_true, decide_eq_true_eq] at hclass
    have hcc : c = ' ' ∨ c = '\t' ∨ c = '\n' ∨ c = '\r' ∨ c = '\x0b' ∨ c = '\x0c' ∨
        c = '?' := by tauto
    rcases hcc with hh | hh | hh | hh | hh | hh | hh <;>
      (subst hh; exact absurd hc (by decide))

theorem entsText_append (a b : List (List Char × List Char × List Char)) :
    entsText (a ++ b) = entsText a ++ entsText b := by
  induction a with
  | nil => rfl
  | cons e r ih => simp [entsText, ih]

theorem entsText_length_ge : ∀ es : List (List Char × List Char × List Char),
    es.length ≤ (entsText es).length
  | [] => Nat.le_refl 0
  | e :: r => by
    have ih := entsText_length_ge r
    simp only [entsText, entryText, List.length_append, List.length_cons]
    omega

theorem hentsText_length_ge : ∀ kvs : List (List Char × List Char),
    kvs.length ≤ (hentsText kvs).length
  | [] => Nat.le_refl 0
  | kv :: r => by
    have ih := hentsText_length_ge r
    simp only [hentsText, hentryText, List.length_append, List.length_cons]
    omega

theorem lastChar_entryText (n t w : List Char) : lastChar (entryText n t w) = some ';' := by
  have hshape : entryText n t w =
      ('[' :: (n ++ ',' :: (t ++ ',' :: w))) ++ [']', ';'] := by
    simp [entryText]
  rw [hshape, lastChar_append_right _ (by simp)]
  rfl

theorem isPre_cons_false_of_ne {a c : Char} {p s : List Char} (h : c ≠ a) :
    isPre (a :: p) (c :: s) = false := by
  simp only [isPre]
  rw [decide_eq_false (fun hh => h hh.symm)]
  simp

theorem blockAttempt_hit (tag i t : List Char) (hi : hasSub cbrk i = false) :
    blockAttempt tag (tag ++ '\x7b' :: (i ++ '\x7d' :: ';' :: t)) =
      some (tag ++ '\x7b' :: (i ++ ['\x7d', ';'])) := by
  have hdrop : (tag ++ '\x7b' :: (i ++ '\x7d' :: ';' :: t)).drop tag.length =
      '\x7b' :: (i ++ '\x7d' :: ';' :: t) := List.drop_left tag _
  have htw : ('\x7b' :: (i ++ '\x7d' :: ';' :: t)).takeWhile isClassChar = [] :=
    List.takeWhile_cons_of_neg (by decide)
  simp only [blockAttempt, hdrop, htw, List.length_nil, List.drop_zero, if_true]
  rw [upToClose_clean i hi t]
  simp

theorem searchBlockGo_skip {tag : List Char} {c : Char} {r : List Char}
    (h : isPre tag (c :: r) = false) (fuel : Nat) :
    searchBlockGo (fuel + 1) tag (c :: r) = searchBlockGo fuel tag r := by
  simp only [searchBlockGo, h]
  simp

theorem searchBlockGo_hit {tag s t : List Char} (fuel : Nat) (hs : s ≠ [])
    (hpre : isPre tag s = true) (hba : blockAttempt tag s = some t) :
    searchBlockGo (fuel + 1) tag s = some t := by
  cases s with
  | nil => exact absurd rfl hs
  | cons c r =>
    simp only [searchBlockGo, hpre, if_true, hba]

theorem searchBlockGo_skip_noAt : ∀ (x : List Char), (∀ c ∈ x, c ≠ '@') →
    ∀ (tagTl y : List Char) (fuel : Nat),
    searchBlockGo (x.length + fuel) ('@' :: tagTl) (x ++ y) =
      searchBlockGo fuel ('@' :: tagTl) y
  | [], _, tagTl, y, fuel => by simp
  | c :: x2, hx, tagTl, y, fuel => by
    have hpre : isPre ('@' :: tagTl) (c :: (x2 ++ y)) = false :=
      isPre_cons_false_of_ne (hx c (by simp))
    rw [show (c :: x2).length + fuel = x2.length + fuel + 1 from by
      simp only [List.length_cons]; omega]
    rw [List.cons_append, searchBlockGo_skip hpre (x2.length + fuel)]
    exact searchBlockGo_skip_noAt x2 (fun d hd => hx d (by simp [hd])) tagTl y fuel

theorem entryAttemptH_hit (k v rest : List Char) (hk : wfNameB k = true)
    (hv : hasSub ebrk v = false) :
    entryAttemptH (k ++ ',' :: (v ++ ']' :: ';' :: rest)) = some ((k, v), rest) := by
  simp only [wfNameB, Bool.and_eq_true] at hk
  obtain ⟨hk1, hk2⟩ := hk
  have hne : ¬(k = []) := by simpa using hk1
  have htw : (k ++ ',' :: (v ++ ']' :: ';' :: rest)).takeWhile isWordChar = k :=
    takeWhile_append_all k (all_word_props hk2) _ (by
      intro d hd
      simp only [List.head?_cons, Option.some.injEq] at hd
      subst hd
      decide)
  simp only [entryAttemptH, htw]
  rw [if_neg hne, List.drop_left]
  simp only [if_true]
  rw [splitAtEnd_clean v hv rest]
  rfl

theorem entryAttemptD_hit (n t w rest : List Char) (hok : entryOkB (n, t, w) = true) :
    entryAttemptD (n ++ ',' :: (t ++ ',' :: (w ++ ']' :: ';' :: rest))) =
      some ((n, t, w), rest) := by
  simp only [entryOkB, Bool.and_eq_true, Bool.not_eq_true'] at hok
  obtain ⟨⟨⟨⟨hn, ht⟩, he1⟩, he2⟩, hw0⟩ := hok
  simp only [wfNameB, Bool.and_eq_true] at hn ht
  have hnne : ¬(n = []) := by simpa using hn.1
  have htne : ¬(t = []) := by simpa using ht.1
  have htw1 : (n ++ ',' :: (t ++ ',' :: (w ++ ']' :: ';' :: rest))).takeWhile isWordChar
      = n :=
    takeWhile_append_all n (all_word_props hn.2) _ (by
      intro d hd
      simp only [List.head?_cons, Option.some.injEq] at hd
      subst hd
      decide)
  obtain ⟨tc, tr, rfl⟩ := List.exists_cons_of_ne_nil htne
  have htc : isWordChar tc = true := all_word_props ht.2 tc (by simp)
  have hcl1 : ((tc :: tr) ++ ',' :: (w ++ ']' :: ';' :: rest)).takeWhile isClassChar
      = [] := by
    rw [List.cons_append]
    exact List.takeWhile_cons_of_neg (by simp [word_not_class htc])
  have htw2 : ((tc :: tr) ++ ',' :: (w ++ ']' :: ';' :: rest)).takeWhile isWordChar
      = tc :: tr :=
    takeWhile_append_all (tc :: tr) (all_word_props ht.2) _ (by
      intro d hd
      simp only [List.head?_cons, Option.some.injEq] at hd
      subst hd
      decide)
  have hcl2 : (w ++ ']' :: ';' :: rest).takeWhile isClassChar = [] := by
    cases w with
    | nil => exact List.takeWhile_cons_of_neg (by decide)
    | cons wc wr =>
      simp only [Bool.not_eq_true'] at hw0
      rw [List.cons_append]
      exact List.takeWhile_cons_of_neg (by simp [hw0])
  simp only [entryAttemptD, htw1]
  rw [if_neg hnne, List.drop_left]
  simp only [if_true, hcl1, List.length_nil, List.drop_zero, htw2]
  rw [if_neg htne, List.drop_left]
  simp only [if_true, hcl2, List.length_nil, List.drop_zero]
  rw [splitAtEnd_clean w he1 rest]
  rfl

theorem findEntriesHGo_nil (fuel : Nat) : findEntriesHGo fuel [] = [] := by
  cases fuel <;> rfl

theorem findEntriesDGo_nil (fuel : Nat) : findEntriesDGo fuel [] = [] := by
  cases fuel <;> rfl

theorem findEntriesHGo_skip {c : Char} (hc : c ≠ '[') (fuel : Nat) (r : List Char) :
    findEntriesHGo (fuel + 1) (c :: r) = findEntriesHGo fuel r := by
  simp only [findEntriesHGo]
  rw [if_neg hc]

theorem findEntriesDGo_skip {c : Char} (hc : c ≠ '[') (fuel : Nat) (r : List Char) :
    findEntriesDGo (fuel + 1) (c :: r) = findEntriesDGo fuel r := by
  simp only [findEntriesDGo]
  rw [if_neg hc]

theorem findEntriesHGo_skip_pre : ∀ (x : List Char), (∀ c ∈ x, c ≠ '[') →
    ∀ (y : List Char) (fuel : Nat),
    findEntriesHGo (x.length + fuel) (x ++ y) = findEntriesHGo fuel y
  | [], _, y, fuel => by simp
  | c :: x2, hx, y, fuel => by
    rw [show (c :: x2).length + fuel = x2.length + fuel + 1 from by
      simp only [List.length_cons]; omega]
    rw [List.cons_append, findEntriesHGo_skip (hx c (by simp)) _ _]
    exact findEntriesHGo_skip_pre x2 (fun d hd => hx d (by simp [hd])) y fuel

theorem findEntriesDGo_skip_pre : ∀ (x : List Char), (∀ c ∈ x, c ≠ '[') →
    ∀ (y : List Char) (fuel : Nat),
    findEntriesDGo (x.length + fuel) (x ++ y) = findEntriesDGo fuel y
  | [], _, y, fuel => by simp
  | c :: x2, hx, y, fuel => by
    rw [show (c :: x2).length + fuel = x2.length + fuel + 1 from by
      simp only [List.length_cons]; omega]
    rw [List.cons_append, findEntriesDGo_skip (hx c (by simp)) _ _]
    exact findEntriesDGo_skip_pre x2 (fun d hd => hx d (by simp [hd])) y fuel

theorem findEntriesHGo_noBr : ∀ (tail : List Char) (fuel : Nat),
    (∀ c ∈ tail, c ≠ '[') → tail.length ≤ fuel → findEntriesHGo fuel tail = []
  | [], fuel, _, _ => findEntriesHGo_nil fuel
  | c :: r, fuel, h, hf => by
    cases fuel with
    | zero => simp at hf
    | succ f =>
      rw [findEntriesHGo_skip (h c (by simp)) f r]
      exact findEntriesHGo_noBr r f (fun d hd => h d (by simp [hd]))
        (by simp only [List.length_cons] at hf; omega)

theorem findEntriesDGo_noBr : ∀ (tail : List Char) (fuel : Nat),
    (∀ c ∈ tail, c ≠ '[') → tail.length ≤ fuel → findEntriesDGo fuel tail = []
  | [], fuel, _, _ => findEntriesDGo_nil fuel
  | c :: r, fuel, h, hf => by
    cases fuel with
    | zero => simp at hf
    | succ f =>
      rw [findEntriesDGo_skip (h c (by simp)) f r]
      exact findEntriesDGo_noBr r f (fun d hd => h d (by simp [hd]))
        (by simp only [List.length_cons] at hf; omega)

theorem findEntriesHGo_run : ∀ (kvs : List (List Char × List Char)),
    (∀ kv ∈ kvs, wfNameB kv.1 = true ∧ hasSub ebrk kv.2 = false) →
    ∀ (tail : List Char), (∀ c ∈ tail, c ≠ '[') →
    ∀ (fuel : Nat), kvs.length + tail.length ≤ fuel →
    findEntriesHGo fuel (hentsText kvs ++ tail) = kvs
  | [], _, tail, htail, fuel, hfuel => by
    simpa [hentsText] using findEntriesHGo_noBr tail fuel htail (by omega)
  | kv :: kvr, hok, tail, htail, fuel, hfuel => by
    obtain ⟨hname, hval⟩ := hok kv (by simp)
    have hshape : hentsText (kv :: kvr) ++ tail =
        '[' :: (kv.1 ++ ',' :: (kv.2 ++ ']' :: ';' :: (hentsText kvr ++ tail))) := by
      simp [hentsText, hentryText]
    cases fuel with
    | zero => simp at hfuel
    | succ f =>
      rw [hshape]
      simp only [findEntriesHGo, if_true]
      rw [entryAttemptH_hit kv.1 kv.2 _ hname hval]
      show (kv.1, kv.2) :: findEntriesHGo f (hentsText kvr ++ tail) = kv :: kvr
      rw [findEntriesHGo_run kvr (fun e he => hok e (by simp [he])) tail htail f
        (by simp only [List.length_cons] at hfuel; omega)]

theorem findEntriesDGo_run : ∀ (es : List (List Char × List Char × List Char)),
    (∀ e ∈ es, entryOkB e = true) →
    ∀ (tail : List Char), (∀ c ∈ tail, c ≠ '[') →
    ∀ (fuel : Nat), es.length + tail.length ≤ fuel →
    findEntriesDGo fuel (entsText es ++ tail) = es
  | [], _, tail, htail, fuel, hfuel => by
    simpa [entsText] using findEntriesDGo_noBr tail fuel htail (by omega)
  | e :: er, hok, tail, htail, fuel, hfuel => by
    have hoke := hok e (by simp)
    have hshape : entsText (e :: er) ++ tail =
        '[' :: (e.1 ++ ',' :: (e.2.1 ++ ',' :: (e.2.2 ++ ']' :: ';' ::
          (entsText er ++ tail)))) := by
      simp [entsText, entryText]
    cases fuel with
    | zero => simp at hfuel
    | succ f =>
      rw [hshape]
      simp only [findEntriesDGo, if_true]
      rw [entryAttemptD_hit e.1 e.2.1 e.2.2 _ (by simpa using hoke)]
      show (e.1, e.2.1, e.2.2) :: findEntriesDGo f (entsText er ++ tail) = e :: er
      rw [findEntriesDGo_run er (fun x hx => hok x (by simp [hx])) tail htail f
        (by simp only [List.length_cons] at hfuel; omega)]

theorem findEntriesH_block (kvs : List (List Char × List Char))
    (hok : ∀ kv ∈ kvs, wfNameB kv.1 = true ∧ hasSub ebrk kv.2 = false) :
    findEntriesH (['@', 'h', 'e', 'a', 'd', 'e', 'r', '=', '\x7b'] ++
      (hentsText kvs ++ ['\x7d', ';'])) = kvs := by
  unfold findEntriesH
  rw [List.length_append, findEntriesHGo_skip_pre _ (by decide) _ _]
  refine findEntriesHGo_run kvs hok ['\x7d', ';'] (by decide) _ ?_
  rw [List.length_append]
  have := hentsText_length_ge kvs
  simp only [List.length_cons, List.length_nil]
  omega

theorem findEntriesD_block (es : List (List Char × List Char × List Char))
    (hok : ∀ e ∈ es, entryOkB e = true) :
    findEntriesD (['@', 'd', 'a', 't', 'a', '=', '\x7b'] ++
      (entsText es ++ ['\x7d', ';'])) = es := by
  unfold findEntriesD
  rw [List.length_append, findEntriesDGo_skip_pre _ (by decide) _ _]
  refine findEntriesDGo_run es hok ['\x7d', ';'] (by decide) _ ?_
  rw [List.length_append]
  have := entsText_length_ge es
  simp only [List.length_cons, List.length_nil]
  omega

theorem wfV_top_dest {n t v : List Char} {ch : List VTree} {fin : Bool}
    (h : wfV (.node n t v ch) fin = true) :
    wfNameB n = true ∧ wfNameB t = true ∧ payloadOkB v = true := by
  simp only [wfV, Bool.and_eq_true] at h
  refine ⟨h.1.1.1, ?_, h.1.2⟩
  simp only [wfNameB, Bool.and_eq_true]
  exact h.1.1.2

theorem payloadOk_dest {v : List Char} (h : payloadOkB v = true) :
    sentinelFreeB v = true ∧ hasSub ebrk (encodeValue v) = false ∧
      hasSub cbrk (encodeValue v) = false ∧
      (match encodeValue v with
       | [] => true
       | c :: _ => !isClassChar c) = true := by
  simp only [payloadOkB, Bool.and_eq_true, Bool.not_eq_true'] at h
  exact ⟨h.1.1.1, h.1.1.2, h.1.2, h.2⟩

theorem entryOk_of_wf {n t v : List Char} (hn : wfNameB n = true) (ht : wfNameB t = true)
    (hp : payloadOkB v = true) : entryOkB (n, t, encodeValue v) = true := by
  obtain ⟨h1, h2, h3, h4⟩ := payloadOk_dest hp
  simp only [entryOkB, Bool.and_eq_true, Bool.not_eq_true']
  exact ⟨⟨⟨⟨hn, ht⟩, h2⟩, h3⟩, h4⟩

mutual
theorem flat_ok_V : ∀ (v : VTree) (fin : Bool), wfV v fin = true →
    ∀ e ∈ flattenV v, entryOkB (encTriple e) = true ∧ sentinelFreeB e.2.2 = true
  | .node n t v0 ch, fin, hwf, e, he => by
    obtain ⟨hn, ht, hp⟩ := wfV_top_dest hwf
    rw [show flattenV (.node n t v0 ch) = (n, t, v0) :: flattenF ch from rfl] at he
    rcases List.mem_cons.mp he with rfl | hmem
    · exact ⟨entryOk_of_wf hn ht hp, (payloadOk_dest hp).1⟩
    · by_cases hk : typeOf t = .containerK
      · exact flat_ok_F ch fin (wfV_container_dest hk hwf).2.1 e hmem
      · obtain ⟨-, rfl⟩ := wfV_leaf_dest hk hwf
        simp [flattenF] at hmem
theorem flat_ok_F : ∀ (l : List VTree) (fin : Bool), wfF l fin = true →
    ∀ e ∈ flattenF l, entryOkB (encTriple e) = true ∧ sentinelFreeB e.2.2 = true
  | [], _, _, e, he => by simp [flattenF] at he
  | [x], fin, hwf, e, he => by
    rw [flattenF_cons] at he
    rcases List.mem_append.mp he with hm | hm
    · exact flat_ok_V x fin (wfF_dest_single hwf) e hm
    · simp [flattenF] at hm
  | x :: y :: r, fin, hwf, e, he => by
    obtain ⟨hx, hr⟩ := wfF_dest_cons₂ hwf
    rw [flattenF_cons] at he
    rcases List.mem_append.mp he with hm | hm
    · exact flat_ok_V x false hx e hm
    · exact flat_ok_F (y :: r) fin hr e hm
end

mutual
theorem valueSerialize_eq : ∀ v : VTree,
    valueSerialize v = entsText ((flattenV v).map encTriple)
  | .node n t v0 ch => by
    rw [show flattenV (.node n t v0 ch) = (n, t, v0) :: flattenF ch from rfl]
    rw [show valueSerialize (.node n t v0 ch)
        = entryText n t (encodeValue v0) ++ serializeF ch from rfl]
    rw [List.map_cons]
    rw [show entsText (encTriple (n, t, v0) :: (flattenF ch).map encTriple)
        = entryText n t (encodeValue v0) ++ entsText ((flattenF ch).map encTriple)
        from rfl]
    rw [serializeF_eq ch]
theorem serializeF_eq : ∀ l : List VTree,
    serializeF l = entsText ((flattenF l).map encTriple)
  | [] => rfl
  | v :: r => by
    rw [flattenF_cons, List.map_append, entsText_append,
      show serializeF (v :: r) = valueSerialize v ++ serializeF r from rfl,
      valueSerialize_eq v, serializeF_eq r]
end

theorem hasSub_cbrk_word_append {t rest : List Char} (ht : t.all isWordChar = true)
    (hr : hasSub cbrk rest = false) : hasSub cbrk (t ++ rest) = false := by
  refine hasSub_pair_append ?_ hr ?_
  · exact hasSub_pair_not_mem (fun c hc =>
      (word_char_props (all_word_props ht c hc)).2.2.2.2.2.1)
  · rintro ⟨hlast, -⟩
    exact (word_char_props (all_word_props ht _ (lastChar_mem hlast))).2.2.2.2.2.1 rfl

theorem hasSub_cbrk_entryText {n t w : List Char} (hok : entryOkB (n, t, w) = true) :
    hasSub cbrk (entryText n t w) = false := by
  simp only [entryOkB, Bool.and_eq_true, Bool.not_eq_true'] at hok
  obtain ⟨⟨⟨⟨hn, ht⟩, he1⟩, he2⟩, -⟩ := hok
  simp only [wfNameB, Bool.and_eq_true] at hn ht
  have h1 : hasSub cbrk (w ++ [']', ';']) = false := by
    refine hasSub_pair_append he2 (by decide) ?_
    rintro ⟨-, hh⟩
    exact absurd (Option.some.inj hh) (by decide)
  have h2 : hasSub cbrk (t ++ ',' :: (w ++ [']', ';'])) = false :=
    hasSub_cbrk_word_append ht.2 (by
      show hasSub ['\x7d', ';'] (',' :: (w ++ [']', ';'])) = false
      rw [hasSub_pair_cons_ne _ (by decide)]
      exact h1)
  have h3 : hasSub cbrk (n ++ ',' :: (t ++ ',' :: (w ++ [']', ';']))) = false :=
    hasSub_cbrk_word_append hn.2 (by
      show hasSub ['\x7d', ';'] (',' :: (t ++ ',' :: (w ++ [']', ';']))) = false
      rw [hasSub_pair_cons_ne _ (by decide)]
      exact h2)
  show hasSub ['\x7d', ';'] ('[' :: (n ++ ',' :: (t ++ ',' :: (w ++ [']', ';'])))) = false
  rw [hasSub_pair_cons_ne _ (by decide)]
  exact h3

theorem hasSub_cbrk_entsText : ∀ (es : List (List Char × List Char × List Char)),
    (∀ e ∈ es, entryOkB e = true) → hasSub cbrk (entsText es) = false
  | [], _ => rfl
  | e :: er, hok => by
    show hasSub ['\x7d', ';'] (entryText e.1 e.2.1 e.2.2 ++ entsText er) = false
    refine hasSub_pair_append ?_ ?_ ?_
    · exact hasSub_cbrk_entryText (hok e (by simp))
    · exact hasSub_cbrk_entsText er (fun x hx => hok x (by simp [hx]))
    · rintro ⟨hh, -⟩
      rw [lastChar_entryText] at hh
      exact absurd (Option.some.inj hh) (by decide)

theorem hentsText_chars : ∀ (kvs : List (List Char × List Char)),
    (∀ kv ∈ kvs, kv.1.all isWordChar = true ∧ headerValOkB kv.2 = true) →
    ∀ c ∈ hentsText kvs, c ≠ '\x7d' ∧ c ≠ '@' ∧ c ≠ '\r' ∧ c ≠ '\n'
  | [], _, c, hc => by simp [hentsText] at hc
  | kv :: r, hk, c, hc => by
    obtain ⟨hk1, hk2⟩ := hk kv (by simp)
    rw [show hentsText (kv :: r) = hentryText kv ++ hentsText r from rfl] at hc
    rcases List.mem_append.mp hc with hm | hm
    · simp only [hentryText, List.mem_cons, List.mem_append] at hm
      rcases hm with rfl | hm | rfl | hm | rfl | rfl | hm
      · exact ⟨by decide, by decide, by decide, by decide⟩
      · have hp := word_char_props (all_word_props hk1 c hm)
        exact ⟨hp.2.2.2.2.2.1, hp.2.2.2.2.2.2.1, hp.1, hp.2.1⟩
      · exact ⟨by decide, by decide, by decide, by decide⟩
      · have hp := headerValOk_mem hk2 c hm
        exact ⟨hp.2.1, hp.1, hp.2.2.2.1, hp.2.2.2.2⟩
      · exact ⟨by decide, by decide, by decide, by decide⟩
      · exact ⟨by decide, by decide, by decide, by decide⟩
      · simp at hm
    · exact hentsText_chars r (fun x hx => hk x (by simp [hx])) c hm

theorem hasSub_cbrk_hentsText (kvs : List (List Char × List Char))
    (hk : ∀ kv ∈ kvs, kv.1.all isWordChar = true ∧ headerValOkB kv.2 = true) :
    hasSub cbrk (hentsText kvs) = false := by
  show hasSub ['\x7d', ';'] (hentsText kvs) = false
  exact hasSub_pair_not_mem (fun c hc => (hentsText_chars kvs hk c hc).1)

theorem stripCRLF_brL : stripCRLF ['['] = ['['] := rfl

theorem stripCRLF_comma : stripCRLF [','] = [','] := rfl

theorem stripCRLF_close : stripCRLF [']', ';'] = [']', ';'] := rfl

theorem stripCRLF_entryText {n t w : List Char} (hn : n.all isWordChar = true)
    (ht : t.all isWordChar = true) (hw : stripCRLF w = w) :
    stripCRLF (entryText n t w) = entryText n t w := by
  have hshape : entryText n t w =
      ['['] ++ n ++ [','] ++ t ++ [','] ++ w ++ [']', ';'] := by
    simp [entryText]
  rw [hshape]
  simp only [stripCRLF_append]
  rw [stripCRLF_word hn, stripCRLF_word ht, hw]
  simp only [stripCRLF_brL, stripCRLF_comma, stripCRLF_close]

theorem stripCRLF_entsText : ∀ (es : List (List Char × List Char × List Char)),
    (∀ e ∈ es, e.1.all isWordChar = true ∧ e.2.1.all isWordChar = true ∧
      stripCRLF e.2.2 = e.2.2) →
    stripCRLF (entsText es) = entsText es
  | [], _ => rfl
  | e :: er, h => by
    obtain ⟨h1, h2, h3⟩ := h e (by simp)
    show stripCRLF (entryText e.1 e.2.1 e.2.2 ++ entsText er) = entsText (e :: er)
    rw [stripCRLF_append, stripCRLF_entryText h1 h2 h3,
      stripCRLF_entsText er (fun x hx => h x (by simp [hx]))]
    rfl

theorem entryOk_dest {e : List Char × List Char × List Char} (h : entryOkB e = true) :
    wfNameB e.1 = true ∧ wfNameB e.2.1 = true ∧ hasSub ebrk e.2.2 = false ∧
      hasSub cbrk e.2.2 = false := by
  simp only [entryOkB, Bool.and_eq_true, Bool.not_eq_true'] at h
  exact ⟨h.1.1.1.1, h.1.1.1.2, h.1.1.2, h.1.2⟩

theorem encMap_props (vs : List VTree) (hwf : wfF vs true = true) :
    ∀ e ∈ (flattenF vs).map encTriple,
      e.1.all isWordChar = true ∧ e.2.1.all isWordChar = true ∧
        stripCRLF e.2.2 = e.2.2 := by
  intro e he
  obtain ⟨x, hx, rfl⟩ := List.mem_map.mp he
  obtain ⟨hn, ht, -, -⟩ := entryOk_dest (flat_ok_F vs true hwf x hx).1
  simp only [wfNameB, Bool.and_eq_true] at hn ht
  exact ⟨hn.2, ht.2, stripCRLF_encode x.2.2⟩

theorem encMap_ok (vs : List VTree) (hwf : wfF vs true = true) :
    ∀ e ∈ (flattenF vs).map encTriple, entryOkB e = true := by
  intro e he
  obtain ⟨x, hx, rfl⟩ := List.mem_map.mp he
  exact (flat_ok_F vs true hwf x hx).1

theorem headerText_shape (c : ContainerM) :
    headerText c = ['@', 'h', 'e', 'a', 'd', 'e', 'r', '=', '\x7b'] ++
      (hentsText (headerKVs c) ++ ['\x7d', ';']) := by
  rw [headerText, headerTag_chars]
  simp

theorem makeDataString_shape (vs : List VTree) :
    makeDataString vs = ['@', 'd', 'a', 't', 'a', '=', '\x7b'] ++
      (serializeF vs ++ ['\x7d', ';']) := by
  rw [makeDataString, dataTag_chars]
  simp

theorem stripCRLF_headerText (c : ContainerM)
    (hkv : ∀ kv ∈ headerKVs c, kv.1.all isWordChar = true ∧ headerValOkB kv.2 = true) :
    stripCRLF (headerText c) = headerText c := by
  have hA : stripCRLF ['@', 'h', 'e', 'a', 'd', 'e', 'r', '=', '\x7b'] =
      ['@', 'h', 'e', 'a', 'd', 'e', 'r', '=', '\x7b'] := stripCRLF_id_of (by decide)
  have hB : stripCRLF ['\x7d', ';'] = ['\x7d', ';'] := stripCRLF_id_of (by decide)
  rw [headerText_shape]
  simp only [stripCRLF_append]
  rw [hA, hB, stripCRLF_id_of (fun ch hch => ⟨(hentsText_chars _ hkv ch hch).2.2.1,
    (hentsText_chars _ hkv ch hch).2.2.2⟩)]

theorem stripCRLF_dataText (vs : List VTree) (hwf : wfF vs true = true) :
    stripCRLF (makeDataString vs) = makeDataString vs := by
  have hA : stripCRLF ['@', 'd', 'a', 't', 'a', '=', '\x7b'] =
      ['@', 'd', 'a', 't', 'a', '=', '\x7b'] := stripCRLF_id_of (by decide)
  have hB : stripCRLF ['\x7d', ';'] = ['\x7d', ';'] := stripCRLF_id_of (by decide)
  rw [makeDataString_shape, serializeF_eq]
  simp only [stripCRLF_append]
  rw [hA, hB, stripCRLF_entsText _ (encMap_props vs hwf)]

theorem searchBlock_header (c : ContainerM) (D : List Char)
    (hbr : hasSub cbrk (hentsText (headerKVs c)) = false) :
    searchBlock "@header=".toList (headerText c ++ D) = some (headerText c) := by
  have hshape : headerText c ++ D = "@header=".toList ++
      '\x7b' :: (hentsText (headerKVs c) ++ '\x7d' :: ';' :: D) := by
    rw [headerText]
    simp
  rw [searchBlock, hshape]
  refine searchBlockGo_hit _ (by rw [headerTag_chars]; simp)
    (isPre_refl_append _ _) ?_
  show blockAttempt "@header=".toList ("@header=".toList ++
    '\x7b' :: (hentsText (headerKVs c) ++ '\x7d' :: ';' :: D)) =
    some ("@header=".toList ++ '\x7b' :: (hentsText (headerKVs c) ++ ['\x7d', ';']))
  exact blockAttempt_hit _ _ D hbr

theorem searchBlock_data (c : ContainerM)
    (hsf : hasSub cbrk (serializeF c.values) = false)
    (hkv : ∀ kv ∈ headerKVs c, kv.1.all isWordChar = true ∧ headerValOkB kv.2 = true) :
    searchBlock "@data=".toList (headerText c ++ makeDataString c.values) =
      some (makeDataString c.values) := by
  have hx : ∀ ch ∈ (['h', 'e', 'a', 'd', 'e', 'r', '=', '\x7b'] ++
      (hentsText (headerKVs c) ++ ['\x7d', ';'])), ch ≠ '@' := by
    intro ch hch
    rcases List.mem_append.mp hch with hm | hm
    · exact (by decide : ∀ x ∈ ['h', 'e', 'a', 'd', 'e', 'r', '=', '\x7b'],
        x ≠ '@') ch hm
    · rcases List.mem_append.mp hm with hm2 | hm2
      · exact (hentsText_chars _ hkv ch hm2).2.1
      · exact (by decide : ∀ x ∈ ['\x7d', ';'], x ≠ '@') ch hm2
  have hmsg : headerText c ++ makeDataString c.values =
      '@' :: ((['h', 'e', 'a', 'd', 'e', 'r', '=', '\x7b'] ++
        (hentsText (headerKVs c) ++ ['\x7d', ';'])) ++ makeDataString c.values) := by
    rw [headerText_shape]
    simp
  have hpre0 : isPre ['@', 'd', 'a', 't', 'a', '=']
      ('@' :: ((['h', 'e', 'a', 'd', 'e', 'r', '=', '\x7b'] ++
        (hentsText (headerKVs c) ++ ['\x7d', ';'])) ++ makeDataString c.values)) =
      false := by
    rw [show (['h', 'e', 'a', 'd', 'e', 'r', '=', '\x7b'] ++
        (hentsText (headerKVs c) ++ ['\x7d', ';'])) ++ makeDataString c.values =
      'h' :: ((['e', 'a', 'd', 'e', 'r', '=', '\x7b'] ++
        (hentsText (headerKVs c) ++ ['\x7d', ';'])) ++ makeDataString c.values)
      from by simp]
    simp only [isPre]
    rw [decide_eq_false (by decide : ¬('d' = 'h'))]
    simp
  rw [searchBlock, dataTag_chars, hmsg]
  rw [show ('@' :: ((['h', 'e', 'a', 'd', 'e', 'r', '=', '\x7b'] ++
      (hentsText (headerKVs c) ++ ['\x7d', ';'])) ++ makeDataString c.values)).length + 1
    = ((['h', 'e', 'a', 'd', 'e', 'r', '=', '\x7b'] ++
      (hentsText (headerKVs c) ++ ['\x7d', ';'])).length +
        ((makeDataString c.values).length + 1)) + 1 from by
    simp only [List.length_cons, List.length_append]
    omega]
  rw [searchBlockGo_skip hpre0 _]
  rw [searchBlockGo_skip_noAt _ hx ['d', 'a', 't', 'a', '='] _ _]
  have hD : makeDataString c.values = ['@', 'd', 'a', 't', 'a', '='] ++
      '\x7b' :: (serializeF c.values ++ '\x7d' :: ';' :: []) := by
    rw [makeDataString, dataTag_chars]
  refine searchBlockGo_hit _ (by rw [hD]; simp) ?_ ?_
  · rw [hD]
    exact isPre_refl_append _ _
  · rw [hD]
    show blockAttempt ['@', 'd', 'a', 't', 'a', '='] (['@', 'd', 'a', 't', 'a', '='] ++
      '\x7b' :: (serializeF c.values ++ '\x7d' :: ';' :: [])) =
      some (['@', 'd', 'a', 't', 'a', '='] ++
        '\x7b' :: (serializeF c.values ++ ['\x7d', ';']))
    exact blockAttempt_hit _ _ [] hsf

theorem parseHeaderInto_headerText (c0 c : ContainerM)
    (hkv : ∀ kv ∈ headerKVs c, wfNameB kv.1 = true ∧ hasSub ebrk kv.2 = false) :
    parseHeaderInto c0 (headerText c) =
      { c0 with
        h1 := c.h1
        h2 := c.h2
        h3 := c.h3
        h4 := c.h4
        h5 := c.h5
        h6 := c.h6 } := by
  unfold parseHeaderInto
  rw [show findEntriesH (headerText c) = headerKVs c from by
    rw [headerText_shape]
    exact findEntriesH_block (headerKVs c) hkv]
  show List.foldl setHeader c0 [(['1'], c.h1), (['2'], c.h2), (['3'], c.h3),
    (['4'], c.h4), (['5'], c.h5), (['6'], c.h6)] =
    { c0 with
      h1 := c.h1
      h2 := c.h2
      h3 := c.h3
      h4 := c.h4
      h5 := c.h5
      h6 := c.h6 }
  rfl

theorem map_id_of_mem {α : Type} (f : α → α) :
    ∀ (l : List α), (∀ x ∈ l, f x = x) → l.map f = l
  | [], _ => rfl
  | x :: r, h => by
    rw [List.map_cons, h x (by simp), map_id_of_mem f r (fun y hy => h y (by simp [hy]))]

/-- C1 (counterexample): a container meeting the claim's own
precondition — forest authoritative and every CONTAINER-kind value's
raw payload equal to its exact decimal child count — whose round trip
still fails: the parse loop closes an empty CONTAINER only when a
non-CONTAINER entry is appended to it, so the sibling that follows the
empty container `c` is swallowed into it and the parsed forest differs
from the original. -/
theorem thmC1_counterexample :
    countsOkF c1cex.values = true ∧ c1cex.deserialized = true ∧
      ¬((containerParse (containerSerialize c1cex)).values = c1cex.values) :=
  ⟨by decide, rfl, by decide⟩

/-- C1 (amended): for a container whose value forest is authoritative
and round-trip well formed (word names and type tags, grammar-safe
sentinel-free payloads, exact child counts, every non-final CONTAINER
closed by a trailing non-CONTAINER child) and whose header values stay
clear of the block grammar, `parse(serialize(c))` recovers all six
headers and the exact value forest. -/
theorem thmC1_roundtrip (c : ContainerM) (h : goodContainerB c = true) :
    (containerParse (containerSerialize c)).h1 = c.h1 ∧
    (containerParse (containerSerialize c)).h2 = c.h2 ∧
    (containerParse (containerSerialize c)).h3 = c.h3 ∧
    (containerParse (containerSerialize c)).h4 = c.h4 ∧
    (containerParse (containerSerialize c)).h5 = c.h5 ∧
    (containerParse (containerSerialize c)).h6 = c.h6 ∧
    (containerParse (containerSerialize c)).values = c.values := by
  simp only [goodContainerB, Bool.and_eq_true] at h
  obtain ⟨⟨⟨⟨⟨⟨⟨hdes, hv1⟩, hv2⟩, hv3⟩, hv4⟩, hv5⟩, hv6⟩, hwf⟩ := h
  have hkvA : ∀ kv ∈ headerKVs c, kv.1.all isWordChar = true ∧
      headerValOkB kv.2 = true := by
    intro kv hkv
    simp only [headerKVs, List.mem_cons, List.not_mem_nil, or_false] at hkv
    rcases hkv with rfl | rfl | rfl | rfl | rfl | rfl
    · exact ⟨(by decide : (['1'] : List Char).all isWordChar = true), hv1⟩
    · exact ⟨(by decide : (['2'] : List Char).all isWordChar = true), hv2⟩
    · exact ⟨(by decide : (['3'] : List Char).all isWordChar = true), hv3⟩
    · exact ⟨(by decide : (['4'] : List Char).all isWordChar = true), hv4⟩
    · exact ⟨(by decide : (['5'] : List Char).all isWordChar = true), hv5⟩
    · exact ⟨(by decide : (['6'] : List Char).all isWordChar = true), hv6⟩
  have hkvB : ∀ kv ∈ headerKVs c, wfNameB kv.1 = true ∧
      hasSub ebrk kv.2 = false := by
    intro kv hkv
    have hval : headerValOkB kv.2 = true := (hkvA kv hkv).2
    have hne : hasSub ebrk kv.2 = false := by
      show hasSub [']', ';'] kv.2 = false
      exact hasSub_pair_not_mem (fun ch hch => (headerValOk_mem hval ch hch).2.2.1)
    refine ⟨?_, hne⟩
    simp only [headerKVs, List.mem_cons, List.not_mem_nil, or_false] at hkv
    rcases hkv with rfl | rfl | rfl | rfl | rfl | rfl
    · exact (by decide : wfNameB ['1'] = true)
    · exact (by decide : wfNameB ['2'] = true)
    · exact (by decide : wfNameB ['3'] = true)
    · exact (by decide : wfNameB ['4'] = true)
    · exact (by decide : wfNameB ['5'] = true)
    · exact (by decide : wfNameB ['6'] = true)
  have hokM := encMap_ok c.values hwf
  have hsfD : hasSub cbrk (serializeF c.values) = false := by
    rw [serializeF_eq]
    exact hasSub_cbrk_entsText _ hokM
  have hbrH : hasSub cbrk (hentsText (headerKVs c)) = false :=
    hasSub_cbrk_hentsText _ hkvA
  have hser : containerSerialize c = headerText c ++ makeDataString c.values := by
    simp [containerSerialize, hdes]
  have hstrip : stripCRLF (containerSerialize c) =
      headerText c ++ makeDataString c.values := by
    rw [hser, stripCRLF_append, stripCRLF_headerText c hkvA,
      stripCRLF_dataText c.values hwf]
  have hsh : searchBlock "@header=".toList (headerText c ++ makeDataString c.values) =
      some (headerText c) := searchBlock_header c _ hbrH
  have hsd := searchBlock_data c hsfD hkvA
  have hfd : findEntriesD (makeDataString c.values) =
      (flattenF c.values).map encTriple := by
    rw [makeDataString_shape, serializeF_eq]
    exact findEntriesD_block _ hokM
  have hdec : ((flattenF c.values).map encTriple).map decodeEntry =
      flattenF c.values := by
    rw [List.map_map]
    refine map_id_of_mem _ _ ?_
    intro x hx
    have hsf := (flat_ok_F c.values true hwf x hx).2
    show (x.1, x.2.1, decodeValue (encodeValue x.2.2)) = x
    rw [escape_roundtrip_of_sentinelFree x.2.2 hsf]
  have hbuild : buildValues [] (flattenF c.values) = c.values := by
    unfold buildValues
    rw [build_forest_top c.values hwf []]
    simp
  have hcp : containerParse (containerSerialize c) =
      parseDataInto
        { containerInit with
          h1 := c.h1
          h2 := c.h2
          h3 := c.h3
          h4 := c.h4
          h5 := c.h5
          h6 := c.h6 }
        (makeDataString c.values) true := by
    simp only [containerParse]
    rw [hstrip, hsh, hsd]
    show parseDataInto (parseHeaderInto containerInit (headerText c))
      (makeDataString c.values) true =
      parseDataInto
        { containerInit with
          h1 := c.h1
          h2 := c.h2
          h3 := c.h3
          h4 := c.h4
          h5 := c.h5
          h6 := c.h6 }
        (makeDataString c.values) true
    rw [parseHeaderInto_headerText containerInit c hkvB]
  rw [hcp]
  refine ⟨rfl, rfl, rfl, rfl, rfl, rfl, ?_⟩
  show buildValues []
    ((findEntriesD (makeDataString c.values)).map decodeEntry) = c.values
  rw [hfd, hdec]
  exact hbuild

/-- C1 (witness): the amended round trip at a concrete nested
container with populated headers and escape-encoded payloads. -/
theorem thmC1_witness :
    goodContainerB c1wit = true ∧
      ((containerParse (containerSerialize c1wit)).h1 = c1wit.h1 ∧
       (containerParse (containerSerialize c1wit)).h2 = c1wit.h2 ∧
       (containerParse (containerSerialize c1wit)).h3 = c1wit.h3 ∧
       (containerParse (containerSerialize c1wit)).h4 = c1wit.h4 ∧
       (containerParse (containerSerialize c1wit)).h5 = c1wit.h5 ∧
       (containerParse (containerSerialize c1wit)).h6 = c1wit.h6 ∧
       (containerParse (containerSerialize c1wit)).values = c1wit.values) :=
  ⟨by decide, thmC1_roundtrip c1wit (by decide)⟩
